import Mathlib

/-!
Verification development for the `code_tree_generator` repository
(`src/graph.py`, `src/file_parser.py`).

The Python code is shallowly embedded: Python dicts become association
lists with in-place overwrite (`dinsert` / `dlookup`), mutation becomes
explicit state passing, and code that can raise becomes `Except String`.
Graph nodes (`graph.Node`) hold their parent as a contained value (the
Python object graph built by the parser is a tree, assembled
parent-first), and adjacency is keyed by node id, which is how `Graph`
itself keys vertices.
-/

namespace CTG

/-! ## Python dictionaries as association lists -/

/-- Python dict lookup `d[k]` / `k in d`, on an association list. -/
def dlookup (k : String) : List (String × α) → Option α
  | [] => none
  | (k', v) :: rest => if k' = k then some v else dlookup k rest

/-- Python dict assignment `d[k] = v`: overwrite in place when the key is
present (Python keeps the original insertion position), append otherwise. -/
def dinsert (k : String) (v : α) : List (String × α) → List (String × α)
  | [] => [(k, v)]
  | (k', v') :: rest => if k' = k then (k, v) :: rest else (k', v') :: dinsert k v rest

/-! ## Decimal rendering of the per-name counters

`_parse_node` builds ids with `name + '_' + str(self._counts[name])`.
`natChars` / `natStr` model Python `str` on a nonnegative int: decimal
digits, most significant first. -/

/-- The character for one decimal digit (`'0' + d`). -/
def digChar (d : Nat) : Char := Char.ofNat (48 + d)

/-- Decimal digits with an explicit recursion bound (`n < fuel` always holds
at use sites, so the `[]` branch is unreachable). Structural recursion keeps
the definition computable by the kernel. -/
def natCharsAux : Nat → Nat → List Char
  | 0, _ => []
  | Nat.succ fuel, n =>
      if n < 10 then [digChar n]
      else natCharsAux fuel (n / 10) ++ [digChar (n % 10)]

/-- Decimal digit characters of a natural number, as Python `str` renders it. -/
def natChars (n : Nat) : List Char := natCharsAux (n + 1) n

/-- Python `str(n)` for a natural number. -/
def natStr (n : Nat) : String := ⟨natChars n⟩

/-! ## graph.py : class Node

`graph.Node` is embedded as an inductive value whose `parentOpt` field
contains the parent node itself: the Python field `_parent` is an object
reference, and every parent is fully constructed before its children
(see `_parse_node`), so parent chains are finite. Adjacency (`_adjacent`,
a dict keyed by `Node` objects) is keyed here by node id, the same key
`Graph.vert_dict` uses for those objects. -/

inductive GNode : Type where
  | mk : (id : String) → (startP : Nat × Nat) → (endP : Nat × Nat) → (file : String) →
      (textOpt : Option String) → (tyOpt : Option String) → (varNameOpt : Option String) →
      (adjacent : List (String × Rat)) → (parentOpt : Option GNode) → GNode

def GNode.id : GNode → String
  | .mk i _ _ _ _ _ _ _ _ => i

def GNode.file : GNode → String
  | .mk _ _ _ f _ _ _ _ _ => f

def GNode.textOpt : GNode → Option String
  | .mk _ _ _ _ t _ _ _ _ => t

def GNode.tyOpt : GNode → Option String
  | .mk _ _ _ _ _ ty _ _ _ => ty

def GNode.varNameOpt : GNode → Option String
  | .mk _ _ _ _ _ _ v _ _ => v

def GNode.adjacent : GNode → List (String × Rat)
  | .mk _ _ _ _ _ _ _ adj _ => adj

def GNode.parentOpt : GNode → Option GNode
  | .mk _ _ _ _ _ _ _ _ p => p

/-- Property `Node.text`: `self._text if self._text else ""` (`None` and the
empty string are both falsy, so both yield `""`). -/
def GNode.text (n : GNode) : String :=
  match n.textOpt with
  | some t => if t ≠ "" then t else ""
  | none => ""

/-- Property `Node.type`: `self._type if self._type else ""`. -/
def GNode.type (n : GNode) : String :=
  match n.tyOpt with
  | some t => if t ≠ "" then t else ""
  | none => ""

/-- Property `Node.var_name`: `self._var_name if self._var_name else ""`. -/
def GNode.var_name (n : GNode) : String :=
  match n.varNameOpt with
  | some t => if t ≠ "" then t else ""
  | none => ""

/-- `Node.add_neighbor(neighbor, weight)`: dict assignment into `_adjacent`. -/
def GNode.add_neighbor : GNode → String → Rat → GNode
  | .mk i s e f t ty v adj p, nid, w => .mk i s e f t ty v (dinsert nid w adj) p

/-- Neighbor ids in insertion order (`Node.get_connections()` returns the
`_adjacent` keys; here those keys are node ids). -/
def GNode.neighborIds (n : GNode) : List String := n.adjacent.map Prod.fst

/-- `Node.get_weight(neighbor)`; `none` models the `KeyError` on a non-neighbor. -/
def GNode.get_weight (n : GNode) (nid : String) : Option Rat := dlookup nid n.adjacent

/-- The per-node effect of `Graph.delete_graph`: `node.parent = None` and
`node._adjacent.clear()`. -/
def GNode.clearRefs : GNode → GNode
  | .mk i s e f t ty v _ _ => .mk i s e f t ty v [] none

/-! ## graph.py : class Graph -/

structure Graph where
  vertDict : List (String × GNode)
  numVertices : Nat

/-- `Graph.add_vertex(node)`: if the node has a parent, that parent's id must
already be registered; then the node is stored under its id (a plain dict
assignment — nothing guards against an id that is already present) and the
vertex counter is incremented. Returns the id. -/
def addVertex (g : Graph) (n : GNode) : Except String (Graph × String) :=
  match n.parentOpt with
  | some p =>
      if (dlookup p.id g.vertDict).isSome then
        .ok (⟨dinsert n.id n g.vertDict, g.numVertices + 1⟩, n.id)
      else .error ("Parent " ++ p.id ++ " not in graph.")
  | none => .ok (⟨dinsert n.id n g.vertDict, g.numVertices + 1⟩, n.id)

/-- `Graph.get_vertex(id)`: the node, or `None`. -/
def getVertex (g : Graph) (i : String) : Option GNode := dlookup i g.vertDict

/-- Helper for `add_edge`: `self.vert_dict[a].add_neighbor(self.vert_dict[b], w)`. -/
def addNeighborIn (vd : List (String × GNode)) (a b : String) (w : Rat) :
    List (String × GNode) :=
  match dlookup a vd with
  | some n => dinsert a (n.add_neighbor b w) vd
  | none => vd

/-- `Graph.add_edge(from_, to_, weight, bi)`: both endpoints must be present,
else an exception; then the weighted neighbor is installed (twice if `bi`). -/
def addEdge (g : Graph) (from_ to_ : String) (w : Rat) (bi : Bool) :
    Except String Graph :=
  if (dlookup from_ g.vertDict).isNone then .error ("Vertex " ++ from_ ++ " not in graph.")
  else if (dlookup to_ g.vertDict).isNone then .error ("Vertex " ++ to_ ++ " not in graph.")
  else
    let vd1 := addNeighborIn g.vertDict from_ to_ w
    let vd2 := if bi then addNeighborIn vd1 to_ from_ w else vd1
    .ok ⟨vd2, g.numVertices⟩

/-- Whether the graph records a directed edge `a → b`. -/
def hasEdge (g : Graph) (a b : String) : Bool :=
  match dlookup a g.vertDict with
  | some n => (dlookup b n.adjacent).isSome
  | none => false

/-- The while-loop of `Graph.get_highest_attribute`: climb to the parent as
long as there is one and its `type` is `'attribute'`. -/
def climbAttr : GNode → GNode
  | .mk i s e f t ty v adj none => .mk i s e f t ty v adj none
  | .mk i s e f t ty v adj (some p) =>
      if p.type = "attribute" then climbAttr p
      else .mk i s e f t ty v adj (some p)

/-- `Graph.get_highest_attribute(id)`: `KeyError` if the id is absent
(modelled as `.error`); `None` if the node has no parent; otherwise the
highest ancestor reached through `'attribute'`-typed parents. -/
def getHighestAttribute (g : Graph) (i : String) : Except String (Option GNode) :=
  match dlookup i g.vertDict with
  | none => .error ("KeyError: " ++ i)
  | some n =>
      match n.parentOpt with
      | none => .ok none
      | some _ => .ok (some (climbAttr n))

/-- `Graph.delete_graph()`: clear every registered node's parent and
adjacency, then clear the vertex table and zero the counter. The second
component is the post-teardown state of the formerly registered nodes. -/
def deleteGraph (g : Graph) : Graph × List GNode :=
  (⟨[], 0⟩, g.vertDict.map (fun p => p.2.clearRefs))

/-! ## Node.get_descendants

The Python method recurses through neighbor object references with no
cycle protection; on a cyclic adjacency it recurses forever. The embedding
indexes recursion depth by fuel: `none` means the computation did not
finish within the given depth. -/

mutual

def getDescendantsF (g : Graph) : Nat → String → Option (List String)
  | 0, _ => none
  | Nat.succ k, i =>
      match dlookup i g.vertDict with
      | none => none
      | some n => descList g k n.neighborIds
termination_by k _ => (k, 0)

def descList (g : Graph) (k : Nat) : List String → Option (List String)
  | [] => some []
  | j :: rest =>
      match getDescendantsF g k j, descList g k rest with
      | some d, some r => some (j :: (d ++ r))
      | _, _ => none
termination_by cs => (k, cs.length + 1)

end

/-- A directed adjacency step recorded in the graph. -/
def edgeOf (g : Graph) (i j : String) : Prop :=
  ∃ n, dlookup i g.vertDict = some n ∧ j ∈ n.neighborIds

/-- Reachability through one or more outgoing edges. -/
inductive ReachesPlus (g : Graph) : String → String → Prop where
  | base : ∀ {i j}, edgeOf g i j → ReachesPlus g i j
  | step : ∀ {i j k}, edgeOf g i j → ReachesPlus g j k → ReachesPlus g i k

/-- Reachability from a node through parent links all typed `'attribute'`. -/
inductive AttrReach : GNode → GNode → Prop where
  | refl : ∀ n, AttrReach n n
  | step : ∀ {n p m}, n.parentOpt = some p → p.type = "attribute" →
      AttrReach p m → AttrReach n m

/-! ## Concrete objects used by counterexamples and witnesses -/

/-- A node with id `"a"`. -/
def nA1 : GNode := GNode.mk "a" (0, 0) (0, 0) "f.py" (some "first") none none [] none

/-- A second, different node that reuses the id `"a"`. -/
def nA2 : GNode := GNode.mk "a" (1, 1) (1, 1) "f.py" (some "second") none none [] none

/-- A graph already holding `nA1` under id `"a"`. -/
def gC4 : Graph := ⟨[("a", nA1)], 1⟩

/-- A node whose adjacency holds itself: a one-node cycle. -/
def cycNode : GNode := GNode.mk "a" (0, 0) (0, 0) "f.py" none none none [("a", 1)] none

/-- A graph with a self-loop on `"a"`. -/
def cycG : Graph := ⟨[("a", cycNode)], 1⟩

/-- An edge-free node with id `"b"`. -/
def nB : GNode := GNode.mk "b" (0, 0) (0, 0) "f.py" none none none [] none

/-- A node `"a"` with one outgoing edge to `"b"`. -/
def nAB : GNode := GNode.mk "a" (0, 0) (0, 0) "f.py" none none none [("b", 1)] none

/-- The acyclic two-node graph `a → b`. -/
def gAcyc : Graph := ⟨[("a", nAB), ("b", nB)], 2⟩

/-- A rank function witnessing acyclicity of `gAcyc`. -/
def rankAcyc (s : String) : Nat := if s = "a" then 1 else 0

/-! ## file_parser.py : the tree-sitter interface

A parsed syntax-tree node exposes its kind tag (`node.type`), whether it is
named, its decoded source text (`node.text.decode("utf-8")`), start/end
points, and the full ordered child list (named and unnamed). The syntactic
parent (`node.parent`) and the node's index among its parent's children are
supplied by the walk, which always comes from the parent: index equality
models the object-identity test `node.parent.children[1] == node`. -/

inductive TSNode : Type where
  | mk : (ty : String) → (isNamed : Bool) → (text : String) →
      (startPoint : Nat × Nat) → (endPoint : Nat × Nat) →
      (children : List TSNode) → TSNode

def TSNode.ty : TSNode → String
  | .mk t _ _ _ _ _ => t

def TSNode.isNamed : TSNode → Bool
  | .mk _ b _ _ _ _ => b

def TSNode.text : TSNode → String
  | .mk _ _ tx _ _ _ => tx

def TSNode.startPoint : TSNode → Nat × Nat
  | .mk _ _ _ sp _ _ => sp

def TSNode.endPoint : TSNode → Nat × Nat
  | .mk _ _ _ _ ep _ => ep

def TSNode.children : TSNode → List TSNode
  | .mk _ _ _ _ _ cs => cs

mutual

/-- Number of nodes of a tree (bounds the walk's recursion depth). -/
def tsSize : TSNode → Nat
  | .mk _ _ _ _ _ cs => 1 + tsSizeList cs
termination_by structural t => t

/-- Number of nodes of a forest. -/
def tsSizeList : List TSNode → Nat
  | [] => 0
  | c :: rest => tsSize c + tsSizeList rest
termination_by structural cs => cs

end

/-- Python list indexing `node.children[i]`: `IndexError` when out of range. -/
def getChild (t : TSNode) (i : Nat) : Except String TSNode :=
  match t.children.get? i with
  | some c => .ok c
  | none => .error "IndexError: child index out of range"

/-- Python `str.startswith`, checked character by character. -/
def isStrPfx : List Char → List Char → Bool
  | [], _ => true
  | _ :: _, [] => false
  | a :: as, b :: bs => a == b && isStrPfx as bs

def pyStartsWith (s pat : String) : Bool := isStrPfx pat.data s.data

/-! ## file_parser.py : ASTFileParser state -/

/-- The tracking state of one `ASTFileParser` during `parse`. The
`_function_calls` / `_imports` / `_function_definitions` tables are keyed
in the source by `self._filepath` at the outer level; a file parser only
ever touches its own `_filepath` key, so the embedding keeps the inner
dicts (an empty outer dict corresponds to an empty inner list).
`_assignments`, `_classes` and the `_delayed_*` queues are never read or
written on the single-file `parse`/`_resolve_imports` path and are
omitted. -/
structure ParserState where
  counts : List (String × Nat)
  functionCalls : List (String × String)
  imports : List (String × (String × String))
  functionDefinitions : List (String × String)
  edgesToAdd : List (String × String)
  ast : Graph

/-- The empty tracking state of a fresh parser (`_init_tracking`). -/
def initState : ParserState := ⟨[], [], [], [], [], ⟨[], 0⟩⟩

/-- Index of the last occurrence of a character (Python `s.rfind(c)` when it
succeeds), carrying the in-range proof. -/
def lastIdxOf (c : Char) : (l : List Char) → Option (Fin l.length)
  | [] => none
  | x :: xs =>
      match lastIdxOf c xs with
      | some i => some i.succ
      | none => if x = c then some ⟨0, by simp⟩ else none

/-- `ASTFileParser._call_to_import`, with the recursion depth made explicit
(each recursive call strictly shortens the name, so the fuel chosen by
`callToImport` never runs out): look the callee name up in the imports
table; on a hit append a (call-site id, import-node id) pair to
`_edges_to_add`; otherwise, when a dot remains (`'.' in function_call`,
equivalently `rfind` succeeds), drop the last dotted segment
(`function_call[:function_call.rfind('.')]`) and retry. -/
def callToImportAux (imports : List (String × (String × String)))
    (edges : List (String × String)) :
    Nat → String → String → List (String × String)
  | 0, _, _ => edges
  | Nat.succ fuel, functionCall, id =>
      match dlookup functionCall imports with
      | some v => edges ++ [(id, v.1)]
      | none =>
          match lastIdxOf '.' functionCall.data with
          | some i => callToImportAux imports edges fuel ⟨functionCall.data.take i.val⟩ id
          | none => edges

/-- `_call_to_import` itself: the name's length bounds the recursion depth. -/
def callToImport (imports : List (String × (String × String)))
    (edges : List (String × String)) (functionCall id : String) :
    List (String × String) :=
  callToImportAux imports edges (functionCall.data.length + 1) functionCall id

/-- Spec-side, from "Dotted-prefix fallback": the sequence of names tried —
the full callee name first, each next dropping the final dotted segment. -/
def dottedPfxs (s : String) : List String :=
  match lastIdxOf '.' s.data with
  | some i => s :: dottedPfxs ⟨s.data.take i.val⟩
  | none => [s]
termination_by s.data.length
decreasing_by
  have hi := i.isLt
  simp only [List.length_take]
  omega

/-- Spec-side resolution: the first tried name bound in the imports table,
if any, yields that import's node id. -/
def resolveDotted (imports : List (String × (String × String))) (s : String) :
    Option String :=
  (dottedPfxs s).findSome? (fun p => (dlookup p imports).map Prod.fst)

/-- `ASTFileParser._handle_call`: record the callee under its name in
`_function_calls` (a dict assignment: last write wins) and immediately try
`_call_to_import`. The callee name `node.children[0].text` is passed in by
the caller, which already evaluated it for the built-in guard. -/
def handleCall (st : ParserState) (functionName id : String) : ParserState :=
  let st1 := { st with functionCalls := dinsert functionName id st.functionCalls }
  { st1 with edgesToAdd := callToImport st1.imports st1.edgesToAdd functionName id }

/-- The `import_name` list computed by `ASTFileParser._handle_import`, and
its early `return` (the empty list). The Python test
`node.parent.children[1] == node` compares tree-sitter node identity; the
walk passes this node's index in its parent's full child list, and the test
holds exactly when that index is 1. A parent that is neither kind of
importing statement leaves `import_path` unbound in Python
(`UnboundLocalError`), modelled as an error. -/
def importEntries (node : TSNode) (tparent : Option TSNode)
    (childIdx : Option Nat) (id : String) :
    Except String (List (String × (String × String))) :=
  if node.ty = "aliased_import" then
    match tparent with
    | none => .error "AttributeError: root has no parent"
    | some tp =>
        if tp.ty = "import_from_statement" then do
          let c1 ← getChild tp 1
          let c0 ← getChild node 0
          let c2 ← getChild node 2
          pure [(c2.text, (id, c1.text ++ "." ++ c0.text))]
        else if tp.ty = "import_statement" then do
          let c0 ← getChild node 0
          let c2 ← getChild node 2
          pure [(c2.text, (id, c0.text))]
        else .error "UnboundLocalError: import_path"
  else if node.ty = "dotted_name" then
    match tparent with
    | none => .error "AttributeError: root has no parent"
    | some tp =>
        if tp.ty = "import_from_statement" then do
          let c1 ← getChild tp 1
          if childIdx = some 1 then pure []
          else pure [(node.text, (id, c1.text))]
        else if tp.ty = "import_statement" then
          pure [(node.text, (id, ""))]
        else .error "UnboundLocalError: import_path"
  else .error "UnboundLocalError: import_name"

/-- `ASTFileParser._handle_import`: compute `import_name`, then insert each
`(bound name, (node id, import path))` entry into `_imports`. -/
def handleImport (st : ParserState) (node : TSNode) (tparent : Option TSNode)
    (childIdx : Option Nat) (id : String) : Except String ParserState := do
  let entries ← importEntries node tparent childIdx id
  pure { st with
    imports := entries.foldl (fun acc e => dinsert e.1 e.2 acc) st.imports }

/-- `ASTFileParser._handle_definition`: record `node.children[1].text` in
`_function_definitions` (a dict assignment: last write wins). -/
def handleDefinition (st : ParserState) (node : TSNode) (id : String) :
    Except String ParserState := do
  let c1 ← getChild node 1
  pure { st with functionDefinitions := dinsert c1.text id st.functionDefinitions }

/-- The text captured for a node in `_parse_node`: the decoded text of a
named leaf, the operator token (`children[1]`) of a `binary_operator`, the
full dotted text of an `attribute`, otherwise nothing. -/
def computeText (node : TSNode) : Except String (Option String) := do
  let t0 : Option String :=
    if node.isNamed && node.children.isEmpty then some node.text else none
  let t1 ←
    if node.ty = "binary_operator" then do
      let c1 ← getChild node 1
      pure (some c1.text)
    else pure t0
  pure (if node.ty = "attribute" then some node.text else t1)

/-- `name = node.type if not text else node.type + ' | ' + text` (Python
truthiness: empty text behaves like `None`). -/
def displayName (node : TSNode) (text : Option String) : String :=
  match text with
  | some tx => if tx ≠ "" then node.ty ++ " | " ++ tx else node.ty
  | none => node.ty

/-- The root/counter naming step of `_parse_node`: the root keeps
`'module | ' + filepath` without touching `_counts`; every other node
appends `'_' + str(counter)` to its display name, starting a fresh counter
at 0 or bumping the existing one. Returns the id and the updated counts. -/
def assignName (fp : String) (node : TSNode) (name0 : String)
    (counts : List (String × Nat)) : String × List (String × Nat) :=
  if node.ty = "module" then (node.ty ++ " | " ++ fp, counts)
  else
    match dlookup name0 counts with
    | none => (name0 ++ "_" ++ natStr 0, dinsert name0 0 counts)
    | some c => (name0 ++ "_" ++ natStr (c + 1), dinsert name0 (c + 1) counts)

/-- The call handling `if` of `_parse_node`: calls whose callee
(`node.children[0].text`) is a language built-in are skipped. -/
def callPhase (builtins : List String) (st1 : ParserState) (node : TSNode)
    (id : String) : Except String ParserState :=
  if node.ty = "call" then do
    let c0 ← getChild node 0
    if builtins.contains c0.text then pure st1
    else pure (handleCall st1 c0.text id)
  else pure st1

/-- The import handling `if` of `_parse_node`: aliased imports, and dotted
names whose parent's kind starts with `import`. -/
def importPhase (st2 : ParserState) (node : TSNode) (tparent : Option TSNode)
    (childIdx : Option Nat) (id : String) : Except String ParserState :=
  if node.ty = "aliased_import" then handleImport st2 node tparent childIdx id
  else if node.ty = "dotted_name" then
    match tparent with
    | none => .error "AttributeError: root has no parent"
    | some tp =>
        if pyStartsWith tp.ty "import" then handleImport st2 node tparent childIdx id
        else pure st2
  else pure st2

/-- The definition handling `if` of `_parse_node`. -/
def defPhase (st3 : ParserState) (node : TSNode) (id : String) :
    Except String ParserState :=
  if node.ty = "function_definition" || node.ty = "class_definition" then
    handleDefinition st3 node id
  else pure st3

/-- The call/import/definition bookkeeping of `_parse_node`, run right
after the node with id `id` has been inserted. -/
def handlePhase (builtins : List String) (st1 : ParserState) (node : TSNode)
    (tparent : Option TSNode) (childIdx : Option Nat) (id : String) :
    Except String ParserState := do
  let st2 ← callPhase builtins st1 node id
  let st3 ← importPhase st2 node tparent childIdx id
  defPhase st3 node id

/-- One node's processing inside `_parse_node` — everything before the child
loop: text extraction, display name with counter suffix (or the
`'module | ' + filepath` root name), node construction and insertion, and
the call/import/definition bookkeeping. `tparent` is `node.parent`,
`childIdx` this node's index in its parent's full child list, `lastNode`
the graph node of the enclosing syntax node.

Python sets `n_.var_name` on the shared object right after insertion; with
value semantics it is applied at construction, which yields the same
stored node. `if text:` tests truthiness, so empty text stays unset. -/
def processNode (builtins : List String) (fp : String) (st : ParserState)
    (node : TSNode) (tparent : Option TSNode) (childIdx : Option Nat)
    (lastNode : Option GNode) : Except String (ParserState × GNode × String) := do
  let text ← computeText node
  let nc := assignName fp node (displayName node text) st.counts
  let textField : Option String :=
    match text with
    | some tx => if tx ≠ "" then some tx else none
    | none => none
  let varField : Option String :=
    if node.ty = "identifier" then some node.text else none
  let n_ : GNode := GNode.mk nc.1 node.startPoint node.endPoint fp
    textField (some node.ty) varField [] lastNode
  let gi ← addVertex st.ast n_
  let st4 ← handlePhase builtins { st with counts := nc.2, ast := gi.1 } node
    tparent childIdx gi.2
  pure (st4, n_, gi.2)

/-- The child loop of `_parse_node`: `for child in node.children`, skipping
unnamed tokens, recursing (through `recurse`, the depth-limited walk), and
then `parent.add_edge(n_.id, to_id_)`. The index counts positions in the
full child list. -/
def parseChildrenGo
    (recurse : ParserState → TSNode → Option TSNode → Option Nat → Option GNode →
      Except String (ParserState × String)) :
    ParserState → List TSNode → Nat → TSNode → GNode → Except String ParserState
  | st, [], _, _, _ => pure st
  | st, c :: rest, i, tparent, n_ =>
      if c.isNamed then do
        let (st1, toId) ← recurse st c (some tparent) (some i) (some n_)
        let g1 ← addEdge st1.ast n_.id toId 1 false
        parseChildrenGo recurse { st1 with ast := g1 } rest (i + 1) tparent n_
      else parseChildrenGo recurse st rest (i + 1) tparent n_

/-- `_parse_node`, with CPython's bounded recursion depth made explicit:
exhausting the stack is a `RecursionError`; otherwise process the node and
walk its named children one level deeper. -/
def parseNode (builtins : List String) (fp : String) :
    Nat → ParserState → TSNode → Option TSNode → Option Nat → Option GNode →
    Except String (ParserState × String)
  | 0, _, _, _, _, _ => .error "RecursionError: maximum recursion depth exceeded"
  | Nat.succ k, st, node, tparent, childIdx, lastNode => do
      let (st1, n_, id) ← processNode builtins fp st node tparent childIdx lastNode
      let st2 ← parseChildrenGo (parseNode builtins fp k) st1 node.children 0 node n_
      pure (st2, id)

/-- First loop of `_resolve_imports`: for every recorded call whose name is
also a recorded definition (and the definitions table is truthy, i.e.
non-empty), add a call→definition and a definition→call edge. -/
def resolveCallDefs (defs : List (String × String)) (g : Graph) :
    List (String × String) → Except String Graph
  | [] => pure g
  | (fname, cid) :: rest =>
      if defs.isEmpty then resolveCallDefs defs g rest
      else
        match dlookup fname defs with
        | some did => do
            let g1 ← addEdge g cid did 1 false
            let g2 ← addEdge g1 did cid 1 false
            resolveCallDefs defs g2 rest
        | none => resolveCallDefs defs g rest

/-- Second loop of `_resolve_imports`: flush the queued `_edges_to_add`. -/
def drainEdges (g : Graph) : List (String × String) → Except String Graph
  | [] => pure g
  | (a, b) :: rest => do
      let g1 ← addEdge g a b 1 false
      drainEdges g1 rest

/-- `ASTFileParser._resolve_imports`: a no-op when no call was recorded
(`if not self._function_calls: return`); otherwise link calls to same-file
definitions in both directions, then flush the queued call→import edges. -/
def resolveImports (st : ParserState) : Except String ParserState :=
  if st.functionCalls.isEmpty then pure st
  else do
    let g1 ← resolveCallDefs st.functionDefinitions st.ast st.functionCalls
    let g2 ← drainEdges g1 st.edgesToAdd
    pure { st with ast := g2 }

/-- `ASTFileParser.parse`: walk the whole tree from a fresh state (the
tree's size bounds its depth, so the recursion budget suffices), then — as
`type(self) == ASTFileParser` — resolve. Returns the final state and the
root id. -/
def parseFile (builtins : List String) (fp : String) (tree : TSNode) :
    Except String (ParserState × String) := do
  let (st, rid) ← parseNode builtins fp (tsSize tree) initState tree none none none
  let st2 ← resolveImports st
  pure (st2, rid)

/-- `ASTFileParser.BUILTINS = dir(__builtins__)`: a process-wide constant
list of built-in names, fixed at module load. The walk above is
parametrized over this list; this representative value (CPython built-in
names) instantiates the concrete runs. -/
def BUILTINS : List String :=
  ["abs", "all", "any", "bool", "dict", "dir", "enumerate", "filter", "float",
   "getattr", "hasattr", "id", "int", "isinstance", "len", "list", "map",
   "max", "min", "next", "object", "open", "print", "range", "repr", "set",
   "sorted", "str", "sum", "super", "tuple", "type", "zip"]

/-! ## Tree predicates and walk invariants -/

mutual

/-- Every node of the tree satisfies `p`. -/
def allNodesB (p : TSNode → Bool) : TSNode → Bool
  | .mk ty nm tx sp ep cs => p (.mk ty nm tx sp ep cs) && allNodesListB p cs

/-- Every node of every tree in the list satisfies `p`. -/
def allNodesListB (p : TSNode → Bool) : List TSNode → Bool
  | [] => true
  | c :: rest => allNodesB p c && allNodesListB p rest

end

/-- The node kind is not `'module'` (true of every non-root node of a
tree-sitter Python parse). -/
def notModuleB (t : TSNode) : Bool := decide (t.ty ≠ "module")

/-- The node kind contains no space (true of tree-sitter grammar kinds). -/
def noSpaceTyB (t : TSNode) : Bool := decide (' ' ∉ t.ty.data)

/-- The root id of a file: `'module | ' + filepath`, no counter. -/
def rootId (fp : String) : String := "module | " ++ fp

/-- Shape of a non-root base display name: either it contains no space
(type-only names), or it is `type + ' | ' + text` with a space-free type
other than `'module'`. -/
def baseOk (b : String) : Prop :=
  (' ' ∉ b.data) ∨
  ∃ (ty : String) (rest : List Char),
    b.data = ty.data ++ (' ' :: '|' :: ' ' :: rest) ∧ ' ' ∉ ty.data ∧ ty ≠ "module"

/-- The id-uniqueness invariant carried through the walk: the vertex counter
counts exactly the stored vertices (no insertion ever overwrote), every key
is the root id or a well-shaped `base + '_' + str(c)` with `c` at most the
base's current counter, and every table value refers to a registered id. -/
def GoodState (fp : String) (st : ParserState) : Prop :=
  st.ast.numVertices = st.ast.vertDict.length ∧
  (∀ k ∈ st.ast.vertDict.map Prod.fst,
    k = rootId fp ∨
    ∃ b c m, k.data = b.data ++ '_' :: natChars c ∧ baseOk b ∧
      dlookup b st.counts = some m ∧ c ≤ m) ∧
  (∀ p ∈ st.functionCalls, p.2 ∈ st.ast.vertDict.map Prod.fst) ∧
  (∀ p ∈ st.functionDefinitions, p.2 ∈ st.ast.vertDict.map Prod.fst) ∧
  (∀ e ∈ st.edgesToAdd, e.1 ∈ st.ast.vertDict.map Prod.fst)

/-- No built-in name is a key of the `_function_calls` table. -/
def NoBuiltinCalls (builtins : List String) (st : ParserState) : Prop :=
  ∀ b ∈ builtins, dlookup b st.functionCalls = none

/-- The id `I` occurs in no table position that resolution reads as an edge
source: not as a recorded call id, not as a recorded definition id, and not
as the source of a queued call→import edge. -/
def UntouchedId (I : String) (st : ParserState) : Prop :=
  (∀ p ∈ st.functionCalls, p.2 ≠ I) ∧
  (∀ p ∈ st.functionDefinitions, p.2 ≠ I) ∧
  (∀ e ∈ st.edgesToAdd, e.1 ≠ I)

/-- Any continuation of the walk from a given state: further `_parse_node`
calls on subtrees satisfying the tree-sitter type facts, and tree-edge
insertions, in any order. -/
inductive WalkFrom (builtins : List String) (fp : String) :
    ParserState → ParserState → Prop where
  | refl : ∀ st, WalkFrom builtins fp st st
  | node : ∀ {st st' st''} (k : Nat) (t : TSNode) (tp : Option TSNode)
      (ci : Option Nat) (ln : Option GNode) (id : String),
      allNodesB notModuleB t = true → allNodesB noSpaceTyB t = true →
      parseNode builtins fp k st t tp ci ln = .ok (st', id) →
      WalkFrom builtins fp st' st'' → WalkFrom builtins fp st st''
  | edge : ∀ {st st''} (a b : String) (g' : Graph),
      addEdge st.ast a b 1 false = .ok g' →
      WalkFrom builtins fp { st with ast := g' } st'' →
      WalkFrom builtins fp st st''

/-! ## Concrete syntax trees for counterexamples and witnesses -/

/-- `identifier` leaf for the name `f`. -/
def tIdF : TSNode := TSNode.mk "identifier" true "f" (0, 0) (0, 1) []

/-- `dotted_name` holding the single identifier `f`. -/
def tDottedF : TSNode := TSNode.mk "dotted_name" true "f" (0, 7) (0, 8) [tIdF]

/-- The unnamed `import` keyword token. -/
def tKwImport : TSNode := TSNode.mk "import" false "import" (0, 0) (0, 6) []

/-- `import f` — an `import_statement` with the keyword and a dotted name. -/
def tImportF : TSNode := TSNode.mk "import_statement" true "import f" (0, 0) (0, 8)
  [tKwImport, tDottedF]

/-- The unnamed parentheses tokens of an empty argument list. -/
def tLParen : TSNode := TSNode.mk "(" false "(" (0, 1) (0, 2) []

/-- Closing parenthesis token. -/
def tRParen : TSNode := TSNode.mk ")" false ")" (0, 2) (0, 3) []

/-- `()` — an empty `argument_list`. -/
def tArgs : TSNode := TSNode.mk "argument_list" true "()" (0, 1) (0, 3) [tLParen, tRParen]

/-- A call `f()`. -/
def tCallF : TSNode := TSNode.mk "call" true "f()" (0, 0) (0, 3) [tIdF, tArgs]

/-- An expression statement wrapping `f()`. -/
def tExprCallF : TSNode := TSNode.mk "expression_statement" true "f()" (0, 0) (0, 3) [tCallF]

/-- The module `import f` / `f()` / `f()`: the same callee called twice
after being imported. -/
def tTwoCalls : TSNode := TSNode.mk "module" true "import f\nf()\nf()" (0, 0) (3, 0)
  [tImportF, tExprCallF, tExprCallF]

/-- A minimal identifier leaf `x`. -/
def tIdX : TSNode := TSNode.mk "identifier" true "x" (0, 0) (0, 1) []

/-- Expression statement wrapping the identifier `x`. -/
def tExprX : TSNode := TSNode.mk "expression_statement" true "x" (0, 0) (0, 1) [tIdX]

/-- The one-statement module `x`. -/
def tModX : TSNode := TSNode.mk "module" true "x" (0, 0) (1, 0) [tExprX]

/-- A call to the built-in `print`: `print()`. -/
def tIdPrint : TSNode := TSNode.mk "identifier" true "print" (0, 0) (0, 5) []

/-- The call node `print()`. -/
def tCallPrint : TSNode := TSNode.mk "call" true "print()" (0, 0) (0, 7) [tIdPrint, tArgs]

/-- A bare call-site node registered under id `"c1"`. -/
def nC1n : GNode := GNode.mk "c1" (0, 0) (0, 1) "f.py" none (some "call") none [] none

/-- A bare definition node registered under id `"d1"`. -/
def nD1 : GNode := GNode.mk "d1" (1, 0) (1, 1) "f.py" none (some "function_definition") none [] none

/-- Graph holding the call and definition nodes. -/
def gC3 : Graph := ⟨[("c1", nC1n), ("d1", nD1)], 2⟩

/-- A state in which `f` is recorded both as a call (at `"c1"`) and as a
definition (at `"d1"`). -/
def stC3 : ParserState := ⟨[], [("f", "c1")], [], [("f", "d1")], [], gC3⟩

/-- Chain for the `get_highest_attribute` witness: top node, no parent. -/
def nP2 : GNode := GNode.mk "p2" (0, 0) (0, 0) "f.py" none (some "attribute") none [] none

/-- Middle node of the chain, an `'attribute'`-typed child of `nP2`. -/
def nP1 : GNode := GNode.mk "p1" (0, 0) (0, 0) "f.py" none (some "attribute") none [] (some nP2)

/-- Bottom node of the chain, child of `nP1`. -/
def nC7 : GNode := GNode.mk "n" (0, 0) (0, 0) "f.py" none (some "identifier") none [] (some nP1)

/-- Graph holding the three-chain for the `get_highest_attribute` witness. -/
def gC7 : Graph := ⟨[("p2", nP2), ("p1", nP1), ("n", nC7)], 3⟩

/-!
# Theorems
-/

/-! ## Association-list dictionary lemmas -/

theorem dlookup_dinsert (k k' : String) (v : α) (l : List (String × α)) :
    dlookup k' (dinsert k v l) = if k = k' then some v else dlookup k' l := by
  induction l with
  | nil => by_cases h : k = k' <;> simp [dinsert, dlookup, h]
  | cons p rest ih =>
    obtain ⟨a, b⟩ := p
    by_cases hak : a = k
    · subst hak
      by_cases h : a = k' <;> simp [dinsert, dlookup, h, ih]
    · by_cases h : a = k'
      · subst h
        have : ¬ k = a := fun hh => hak hh.symm
        simp [dinsert, dlookup, hak, this]
      · simp [dinsert, dlookup, hak, h, ih]

theorem dlookup_mem {k : String} {v : α} {l : List (String × α)} :
    dlookup k l = some v → (k, v) ∈ l := by
  induction l with
  | nil => intro h; simp [dlookup] at h
  | cons p rest ih =>
    obtain ⟨a, b⟩ := p
    by_cases h : a = k
    · subst h
      intro hl
      simp [dlookup] at hl
      simp [hl]
    · intro hl
      simp [dlookup, h] at hl
      exact List.mem_cons_of_mem _ (ih hl)

theorem dlookup_isSome_iff_mem_keys {k : String} {l : List (String × α)} :
    (dlookup k l).isSome ↔ k ∈ l.map Prod.fst := by
  induction l with
  | nil => simp [dlookup]
  | cons p rest ih =>
    obtain ⟨a, b⟩ := p
    by_cases h : a = k
    · subst h; simp [dlookup]
    · rw [dlookup, if_neg h]
      simp only [List.map_cons, List.mem_cons]
      rw [ih]
      constructor
      · intro hk; exact Or.inr hk
      · intro hk
        rcases hk with hk | hk
        · exact absurd hk.symm h
        · exact hk

theorem dinsert_of_absent {k : String} (v : α) {l : List (String × α)} :
    dlookup k l = none → dinsert k v l = l ++ [(k, v)] := by
  induction l with
  | nil => intro _; simp [dinsert]
  | cons p rest ih =>
    obtain ⟨a, b⟩ := p
    by_cases h : a = k
    · subst h; intro hl; simp [dlookup] at hl
    · intro hl
      simp [dlookup, h] at hl
      simp [dinsert, h, ih hl]

theorem keys_dinsert_of_present {k : String} (v : α) {l : List (String × α)} :
    (dlookup k l).isSome → (dinsert k v l).map Prod.fst = l.map Prod.fst := by
  induction l with
  | nil => intro h; simp [dlookup] at h
  | cons p rest ih =>
    obtain ⟨a, b⟩ := p
    by_cases h : a = k
    · subst h; intro _; simp [dinsert]
    · intro hl
      simp [dlookup, h] at hl
      simp [dinsert, h, ih hl]

theorem mem_dinsert {k : String} {v : α} {l : List (String × α)} {p : String × α} :
    p ∈ dinsert k v l → p = (k, v) ∨ p ∈ l := by
  induction l with
  | nil => intro h; simp [dinsert] at h; exact Or.inl h
  | cons q rest ih =>
    obtain ⟨a, b⟩ := q
    by_cases h : a = k
    · subst h
      intro hp
      simp [dinsert] at hp
      rcases hp with hp | hp
      · exact Or.inl (by simp [hp])
      · exact Or.inr (List.mem_cons_of_mem _ hp)
    · intro hp
      simp only [dinsert, if_neg h, List.mem_cons] at hp
      rcases hp with hp | hp
      · exact Or.inr (by simp [hp])
      · rcases ih hp with h1 | h1
        · exact Or.inl h1
        · exact Or.inr (List.mem_cons_of_mem _ h1)

theorem length_dinsert_of_absent {k : String} (v : α) {l : List (String × α)} :
    dlookup k l = none → (dinsert k v l).length = l.length + 1 := by
  intro h; rw [dinsert_of_absent v h]; simp

theorem length_dinsert_of_present {k : String} (v : α) {l : List (String × α)} :
    (dlookup k l).isSome → (dinsert k v l).length = l.length := by
  intro h
  have h0 := @keys_dinsert_of_present _ k v l h
  have h1 : ((dinsert k v l).map Prod.fst).length = (l.map Prod.fst).length := by rw [h0]
  simpa using h1

/-! ## Decimal digit lemmas -/

theorem digChar_val_of_lt (d : Nat) (h : d < 10) : (digChar d).toNat = 48 + d := by
  interval_cases d <;> decide

theorem digChar_inj {a b : Nat} (ha : a < 10) (hb : b < 10) :
    digChar a = digChar b → a = b := by
  intro h
  have := congrArg Char.toNat h
  rw [digChar_val_of_lt a ha, digChar_val_of_lt b hb] at this
  omega

theorem digChar_ne_underscore {d : Nat} (h : d < 10) : digChar d ≠ '_' := by
  intro hd
  have h1 : (digChar d).toNat = 95 := by rw [hd]; rfl
  rw [digChar_val_of_lt d h] at h1
  omega

theorem digChar_ne_space {d : Nat} (h : d < 10) : digChar d ≠ ' ' := by
  intro hd
  have h1 : (digChar d).toNat = 32 := by rw [hd]; rfl
  rw [digChar_val_of_lt d h] at h1
  omega

theorem natCharsAux_irrel :
    ∀ (f1 f2 n : Nat), n < f1 → n < f2 → natCharsAux f1 n = natCharsAux f2 n := by
  intro f1
  induction f1 with
  | zero => intro f2 n h _; omega
  | succ f1 ih =>
    intro f2 n h1 h2
    cases f2 with
    | zero => omega
    | succ f2 =>
      by_cases h : n < 10
      · simp [natCharsAux, h]
      · have hdiv : n / 10 < n := Nat.div_lt_self (by omega) (by omega)
        simp only [natCharsAux, if_neg h]
        rw [ih f2 (n / 10) (by omega) (by omega)]

theorem natChars_of_lt {n : Nat} (h : n < 10) : natChars n = [digChar n] := by
  simp [natChars, natCharsAux, h]

theorem natChars_of_ge {n : Nat} (h : ¬ n < 10) :
    natChars n = natChars (n / 10) ++ [digChar (n % 10)] := by
  have hd : n / 10 < n := Nat.div_lt_self (by omega) (by omega)
  have h1 : natChars n = natCharsAux n (n / 10) ++ [digChar (n % 10)] := by
    simp [natChars, natCharsAux, h]
  rw [h1, natChars, natCharsAux_irrel n (n / 10 + 1) (n / 10) hd (by omega)]

theorem natChars_ne_nil (n : Nat) : natChars n ≠ [] := by
  by_cases h : n < 10
  · rw [natChars_of_lt h]; simp
  · rw [natChars_of_ge h]; simp

theorem mem_natChars_isDigit {n : Nat} {c : Char} :
    c ∈ natChars n → ∃ d, d < 10 ∧ c = digChar d := by
  induction n using Nat.strong_induction_on with
  | _ n ih =>
    by_cases h : n < 10
    · rw [natChars_of_lt h]
      intro hc
      simp at hc
      exact ⟨n, by omega, hc⟩
    · rw [natChars_of_ge h]
      intro hc
      simp at hc
      rcases hc with hc | hc
      · exact ih (n / 10) (Nat.div_lt_self (by omega) (by omega)) hc
      · exact ⟨n % 10, Nat.mod_lt _ (by omega), hc⟩

theorem underscore_notMem_natChars (n : Nat) : '_' ∉ natChars n := by
  intro h
  obtain ⟨d, hd, hc⟩ := mem_natChars_isDigit h
  exact digChar_ne_underscore hd hc.symm

theorem space_notMem_natChars (n : Nat) : ' ' ∉ natChars n := by
  intro h
  obtain ⟨d, hd, hc⟩ := mem_natChars_isDigit h
  exact digChar_ne_space hd hc.symm

theorem natChars_inj : ∀ {a b : Nat}, natChars a = natChars b → a = b := by
  intro a
  induction a using Nat.strong_induction_on with
  | _ a ih =>
    intro b h
    by_cases ha : a < 10 <;> by_cases hb : b < 10
    · rw [natChars_of_lt ha, natChars_of_lt hb] at h
      simp at h
      exact digChar_inj ha hb h
    · rw [natChars_of_lt ha, natChars_of_ge hb] at h
      have h1 := congrArg List.length h
      simp at h1
      exact absurd h1 (natChars_ne_nil (b / 10))
    · rw [natChars_of_ge ha, natChars_of_lt hb] at h
      have h1 := congrArg List.length h
      simp at h1
      exact absurd h1 (natChars_ne_nil (a / 10))
    · rw [natChars_of_ge ha, natChars_of_ge hb] at h
      have h2 := List.append_inj' h (by rfl)
      have hdiv : a / 10 = b / 10 :=
        ih (a / 10) (Nat.div_lt_self (by omega) (by omega)) h2.1
      have hmod : a % 10 = b % 10 := by
        have h3 := h2.2
        simp at h3
        exact digChar_inj (Nat.mod_lt _ (by omega)) (Nat.mod_lt _ (by omega)) h3
      omega

/-! ## Splitting strings at a distinguished separator occurrence -/

/-- If a character `c` does not occur in either suffix, splitting at the
last occurrence of `c` is unambiguous. -/
theorem split_at_last_sep {c : Char} :
    ∀ {x1 x2 d1 d2 : List Char}, x1 ++ c :: d1 = x2 ++ c :: d2 →
      c ∉ d1 → c ∉ d2 → x1 = x2 ∧ d1 = d2 := by
  intro x1
  induction x1 with
  | nil =>
    intro x2 d1 d2 h h1 h2
    cases x2 with
    | nil => simp at h; simp [h]
    | cons y ys =>
      simp at h
      exact absurd (h.2 ▸ List.mem_append_right ys (by simp)) h1
  | cons x xs ih =>
    intro x2 d1 d2 h h1 h2
    cases x2 with
    | nil =>
      simp at h
      exact absurd (h.2 ▸ List.mem_append_right xs (by simp)) h2
    | cons y ys =>
      simp at h
      obtain ⟨hxy, hrest⟩ := h
      obtain ⟨ha, hb⟩ := ih hrest h1 h2
      exact ⟨by simp [hxy, ha], hb⟩

/-- If a character `c` does not occur in either first component, splitting
at the first occurrence of `c` is unambiguous. -/
theorem split_at_first_sep {c : Char} :
    ∀ {x1 x2 d1 d2 : List Char}, x1 ++ c :: d1 = x2 ++ c :: d2 →
      c ∉ x1 → c ∉ x2 → x1 = x2 ∧ d1 = d2 := by
  intro x1
  induction x1 with
  | nil =>
    intro x2 d1 d2 h h1 h2
    cases x2 with
    | nil => simp at h; simp [h]
    | cons y ys =>
      simp at h
      exact absurd (h.1 ▸ List.mem_cons_self y ys) h2
  | cons x xs ih =>
    intro x2 d1 d2 h h1 h2
    cases x2 with
    | nil =>
      simp at h
      exact absurd (h.1 ▸ List.mem_cons_self x xs) h1
    | cons y ys =>
      simp at h
      obtain ⟨hxy, hrest⟩ := h
      have h1' : c ∉ xs := fun hc => h1 (List.mem_cons_of_mem _ hc)
      have h2' : c ∉ ys := fun hc => h2 (List.mem_cons_of_mem _ hc)
      obtain ⟨ha, hb⟩ := ih hrest h1' h2'
      exact ⟨by simp [hxy, ha], hb⟩

/-! ## Node accessor and teardown lemmas -/

theorem clearRefs_parentOpt (n : GNode) : n.clearRefs.parentOpt = none := by
  cases n; rfl

theorem clearRefs_adjacent (n : GNode) : n.clearRefs.adjacent = [] := by
  cases n; rfl

/-- C10: the `Node.text` / `Node.type` / `Node.var_name` properties are
total `String`-valued accessors; when the underlying optional field is
unset they return the empty string, never the absent marker (`None`). -/
theorem c10_accessors_default (i : String) (s e : Nat × Nat) (f : String)
    (t ty v : Option String) (adj : List (String × Rat)) (p : Option GNode) :
    (GNode.mk i s e f none ty v adj p).text = "" ∧
    (GNode.mk i s e f t none v adj p).type = "" ∧
    (GNode.mk i s e f t ty none adj p).var_name = "" :=
  ⟨rfl, rfl, rfl⟩

/-- C8: `delete_graph` leaves every formerly registered node with a null
parent and empty adjacency, and the graph itself with an empty vertex
table and a zero vertex counter. -/
theorem c8_teardown_complete (g : Graph) :
    (deleteGraph g).1.vertDict = [] ∧ (deleteGraph g).1.numVertices = 0 ∧
    ∀ n ∈ (deleteGraph g).2, n.parentOpt = none ∧ n.adjacent = [] := by
  refine ⟨rfl, rfl, ?_⟩
  intro n hn
  simp only [deleteGraph, List.mem_map] at hn
  obtain ⟨p, _, hp⟩ := hn
  rw [← hp]
  exact ⟨clearRefs_parentOpt _, clearRefs_adjacent _⟩

/-- C4 fails on the code: `add_vertex` performs a plain dict assignment with
no duplicate check. Re-inserting a node under the already-registered id
`"a"` succeeds (no error), silently replaces the stored node, and still
increments the vertex counter to 2 although only one vertex remains. -/
theorem c4_counterexample :
    addVertex gC4 nA2 = .ok (⟨[("a", nA2)], 2⟩, "a") ∧ nA1 ≠ nA2 := by
  constructor
  · rfl
  · intro h
    have := congrArg GNode.textOpt h
    simp [nA1, nA2, GNode.textOpt] at this

/-- C4, amended: inserting a node whose id is already registered is a
silent last-write-wins overwrite — `add_vertex` succeeds, stores the new
node under the id, and increments `num_vertices` regardless. -/
theorem c4_amended (g : Graph) (n : GNode) (h : n.parentOpt = none) :
    addVertex g n = .ok (⟨dinsert n.id n g.vertDict, g.numVertices + 1⟩, n.id) ∧
    dlookup n.id (dinsert n.id n g.vertDict) = some n := by
  constructor
  · rw [addVertex, h]
  · rw [dlookup_dinsert]; simp

/-- Witness for the amended C4 at a concrete duplicate insertion. -/
theorem c4_witness :
    addVertex gC4 nA2 = .ok (⟨dinsert nA2.id nA2 gC4.vertDict, gC4.numVertices + 1⟩, nA2.id) ∧
    dlookup nA2.id (dinsert nA2.id nA2 gC4.vertDict) = some nA2 :=
  c4_amended gC4 nA2 rfl

/-! ## get_highest_attribute -/

theorem climbAttr_none_eq (i : String) (s e : Nat × Nat) (f : String)
    (t ty v : Option String) (adj : List (String × Rat)) :
    climbAttr (GNode.mk i s e f t ty v adj none) = GNode.mk i s e f t ty v adj none := by
  rw [climbAttr.eq_def]

theorem climbAttr_some_eq (i : String) (s e : Nat × Nat) (f : String)
    (t ty v : Option String) (adj : List (String × Rat)) (p : GNode) :
    climbAttr (GNode.mk i s e f t ty v adj (some p)) =
      if p.type = "attribute" then climbAttr p
      else GNode.mk i s e f t ty v adj (some p) := by
  rw [climbAttr.eq_def]

theorem climbAttr_reach_aux :
    ∀ (k : Nat) (n : GNode), sizeOf n ≤ k → AttrReach n (climbAttr n) := by
  intro k
  induction k with
  | zero =>
    intro n h
    exfalso
    cases n
    simp at h
  | succ k ih =>
    intro n h
    cases n with
    | mk i s e f t ty v adj po =>
      cases po with
      | none => rw [climbAttr_none_eq]; exact AttrReach.refl _
      | some p =>
        by_cases hp : p.type = "attribute"
        · rw [climbAttr_some_eq, if_pos hp]
          refine @AttrReach.step (GNode.mk i s e f t ty v adj (some p)) p _ rfl hp ?_
          refine ih p ?_
          have hlt : sizeOf p < sizeOf (GNode.mk i s e f t ty v adj (some p)) := by
            simp
            omega
          omega
        · rw [climbAttr_some_eq, if_neg hp]; exact AttrReach.refl _

theorem climbAttr_reach (n : GNode) : AttrReach n (climbAttr n) :=
  climbAttr_reach_aux (sizeOf n) n (le_refl _)

theorem climbAttr_stop_aux :
    ∀ (k : Nat) (n : GNode), sizeOf n ≤ k →
      (climbAttr n).parentOpt = none ∨
      ∃ q, (climbAttr n).parentOpt = some q ∧ q.type ≠ "attribute" := by
  intro k
  induction k with
  | zero =>
    intro n h
    exfalso
    cases n
    simp at h
  | succ k ih =>
    intro n h
    cases n with
    | mk i s e f t ty v adj po =>
      cases po with
      | none => rw [climbAttr_none_eq]; exact Or.inl rfl
      | some p =>
        by_cases hp : p.type = "attribute"
        · rw [climbAttr_some_eq, if_pos hp]
          refine ih p ?_
          have hlt : sizeOf p < sizeOf (GNode.mk i s e f t ty v adj (some p)) := by
            simp
            omega
          omega
        · rw [climbAttr_some_eq, if_neg hp]
          exact Or.inr ⟨p, rfl, hp⟩

theorem climbAttr_stop (n : GNode) :
    (climbAttr n).parentOpt = none ∨
    ∃ q, (climbAttr n).parentOpt = some q ∧ q.type ≠ "attribute" :=
  climbAttr_stop_aux (sizeOf n) n (le_refl _)

/-- C7: for a registered id, `get_highest_attribute` returns `None` when the
node has no parent at all, and otherwise the climb result: an ancestor
reached from the node through a chain of `'attribute'`-typed parents that
itself has no `'attribute'`-typed parent (so it is the highest such). -/
theorem c7_get_highest_attribute (g : Graph) (i : String) (n : GNode)
    (hn : dlookup i g.vertDict = some n) :
    (n.parentOpt = none → getHighestAttribute g i = .ok none) ∧
    (∀ p, n.parentOpt = some p →
      getHighestAttribute g i = .ok (some (climbAttr n)) ∧
      AttrReach n (climbAttr n) ∧
      ((climbAttr n).parentOpt = none ∨
        ∃ q, (climbAttr n).parentOpt = some q ∧ q.type ≠ "attribute")) := by
  constructor
  · intro hp
    simp only [getHighestAttribute, hn, hp]
  · intro p hp
    refine ⟨?_, climbAttr_reach n, climbAttr_stop n⟩
    simp only [getHighestAttribute, hn, hp]

/-- Witness for C7 on the three-node `'attribute'` chain. -/
theorem c7_witness :
    getHighestAttribute gC7 "n" = .ok (some (climbAttr nC7)) ∧
    AttrReach nC7 (climbAttr nC7) ∧ climbAttr nC7 = nP2 := by
  have h := c7_get_highest_attribute gC7 "n" nC7 (by rfl)
  have h2 := h.2 nP1 rfl
  refine ⟨h2.1, h2.2.1, ?_⟩
  have e1 : nC7 = GNode.mk "n" (0, 0) (0, 0) "f.py" none (some "identifier") none [] (some nP1) := rfl
  have e2 : nP1 = GNode.mk "p1" (0, 0) (0, 0) "f.py" none (some "attribute") none [] (some nP2) := rfl
  have e3 : nP2 = GNode.mk "p2" (0, 0) (0, 0) "f.py" none (some "attribute") none [] none := rfl
  rw [e1, climbAttr_some_eq, if_pos (show nP1.type = "attribute" from rfl)]
  rw [e2, climbAttr_some_eq, if_pos (show nP2.type = "attribute" from rfl)]
  rw [e3, climbAttr_none_eq]

/-! ## get_descendants -/

theorem getDescendantsF_correct (g : Graph) (rank : String → Nat)
    (hrank : ∀ i j, edgeOf g i j → rank j < rank i)
    (hclosed : ∀ i j, edgeOf g i j → (dlookup j g.vertDict).isSome) :
    ∀ (k : Nat) (i : String), rank i < k → (dlookup i g.vertDict).isSome →
      ∃ res, getDescendantsF g k i = some res ∧
        ∀ x, (x ∈ res ↔ ReachesPlus g i x) := by
  intro k
  induction k using Nat.strong_induction_on with
  | _ k ih =>
    intro i hk hi
    obtain ⟨n, hn⟩ := Option.isSome_iff_exists.mp hi
    cases k with
    | zero => omega
    | succ k' =>
      have hstep : getDescendantsF g (Nat.succ k') i = descList g k' n.neighborIds := by
        rw [getDescendantsF, hn]
      have hsub : ∀ js, (∀ x ∈ js, x ∈ n.neighborIds) →
          ∃ r, descList g k' js = some r ∧
            ∀ x, (x ∈ r ↔ ∃ j ∈ js, x = j ∨ ReachesPlus g j x) := by
        intro js
        induction js with
        | nil => intro _; exact ⟨[], by rw [descList], by simp⟩
        | cons j rest ihl =>
          intro hjs
          have hjmem : j ∈ n.neighborIds := hjs j (by simp)
          have hedge : edgeOf g i j := ⟨n, hn, hjmem⟩
          have hrj : rank j < k' := by
            have h1 := hrank i j hedge
            omega
          obtain ⟨d, hd, hdmem⟩ := ih k' (by omega) j hrj (hclosed i j hedge)
          obtain ⟨r, hr, hrmem⟩ := ihl (fun x hx => hjs x (List.mem_cons_of_mem _ hx))
          refine ⟨j :: (d ++ r), by rw [descList, hd, hr], ?_⟩
          intro x
          simp only [List.mem_cons, List.mem_append]
          constructor
          · rintro (hx | hx | hx)
            · exact ⟨j, by simp, Or.inl hx⟩
            · exact ⟨j, by simp, Or.inr ((hdmem x).mp hx)⟩
            · obtain ⟨j', hj', hcase⟩ := (hrmem x).mp hx
              exact ⟨j', Or.inr hj', hcase⟩
          · rintro ⟨j', hj', hcase⟩
            rcases hj' with hj1 | hj1
            · subst hj1
              rcases hcase with hx | hx
              · exact Or.inl hx
              · exact Or.inr (Or.inl ((hdmem x).mpr hx))
            · exact Or.inr (Or.inr ((hrmem x).mpr ⟨j', hj1, hcase⟩))
      obtain ⟨r, hr, hrmem⟩ := hsub n.neighborIds (fun _ hx => hx)
      refine ⟨r, by rw [hstep]; exact hr, ?_⟩
      intro x
      rw [hrmem x]
      constructor
      · rintro ⟨j, hj, hx | hx⟩
        · subst hx
          exact ReachesPlus.base ⟨n, hn, hj⟩
        · exact ReachesPlus.step ⟨n, hn, hj⟩ hx
      · intro hx
        cases hx with
        | base h =>
          obtain ⟨n', hn', hj⟩ := h
          rw [hn] at hn'
          have hnn : n = n' := Option.some.inj hn'
          subst hnn
          exact ⟨x, hj, Or.inl rfl⟩
        | step h hrp =>
          obtain ⟨n', hn', hj⟩ := h
          rw [hn] at hn'
          have hnn : n = n' := Option.some.inj hn'
          subst hnn
          exact ⟨_, hj, Or.inr hrp⟩

theorem getDescendantsF_cyc : ∀ k, getDescendantsF cycG k "a" = none := by
  intro k
  induction k with
  | zero => rw [getDescendantsF]
  | succ k ih =>
    have h1 : dlookup "a" cycG.vertDict = some cycNode := rfl
    rw [getDescendantsF, h1]
    show descList cycG k cycNode.neighborIds = none
    have h2 : cycNode.neighborIds = ["a"] := rfl
    rw [h2, descList, ih]

/-- C9: on a finite graph whose outgoing-edge relation admits a strictly
decreasing rank (equivalently, is acyclic) and whose recorded neighbors are
all registered, `get_descendants` terminates (fuel `rank i + 1` suffices)
and its result contains exactly the nodes reachable through one or more
outgoing edges; and on a cyclic graph (a self-loop) the recursion exhausts
every fuel bound, i.e. the Python original never terminates. -/
theorem c9_descendants_termination :
    (∀ (g : Graph) (rank : String → Nat),
      (∀ i j, edgeOf g i j → rank j < rank i) →
      (∀ i j, edgeOf g i j → (dlookup j g.vertDict).isSome) →
      ∀ i, (dlookup i g.vertDict).isSome →
        ∃ res, getDescendantsF g (rank i + 1) i = some res ∧
          ∀ x, (x ∈ res ↔ ReachesPlus g i x)) ∧
    (∀ k, getDescendantsF cycG k "a" = none) := by
  constructor
  · intro g rank h1 h2 i hi
    exact getDescendantsF_correct g rank h1 h2 (rank i + 1) i (by omega) hi
  · exact getDescendantsF_cyc

/-- Witness for C9 on the acyclic two-node graph `a → b`. -/
theorem c9_witness :
    ∃ res, getDescendantsF gAcyc (rankAcyc "a" + 1) "a" = some res ∧
      ∀ x, (x ∈ res ↔ ReachesPlus gAcyc "a" x) := by
  refine c9_descendants_termination.1 gAcyc rankAcyc ?_ ?_ "a" (by rfl)
  · rintro i j ⟨n, hn, hj⟩
    have hvd : gAcyc.vertDict = [("a", nAB), ("b", nB)] := rfl
    rw [hvd, dlookup, dlookup, dlookup] at hn
    split_ifs at hn with h1 h2
    · have hnn : nAB = n := Option.some.inj hn
      subst hnn
      have hb : nAB.neighborIds = ["b"] := rfl
      rw [hb] at hj
      simp at hj
      subst hj
      rw [← h1]
      decide
    · have hnn : nB = n := Option.some.inj hn
      subst hnn
      have hb : nB.neighborIds = [] := rfl
      rw [hb] at hj
      simp at hj
  · rintro i j ⟨n, hn, hj⟩
    have hvd : gAcyc.vertDict = [("a", nAB), ("b", nB)] := rfl
    rw [hvd, dlookup, dlookup, dlookup] at hn
    split_ifs at hn with h1 h2
    · have hnn : nAB = n := Option.some.inj hn
      subst hnn
      have hb : nAB.neighborIds = ["b"] := rfl
      rw [hb] at hj
      simp at hj
      subst hj
      decide
    · have hnn : nB = n := Option.some.inj hn
      subst hnn
      have hb : nB.neighborIds = [] := rfl
      rw [hb] at hj
      simp at hj

/-! ## Except plumbing -/

theorem except_bind_ok {α β : Type} {x : Except String α} {f : α → Except String β} {b : β} :
    (x >>= f) = .ok b → ∃ a, x = .ok a ∧ f a = .ok b := by
  intro h
  cases x with
  | error e => simp [Bind.bind, Except.bind] at h
  | ok a => exact ⟨a, rfl, by simpa [Bind.bind, Except.bind] using h⟩

theorem except_pure_ok {α : Type} {a b : α} :
    (pure a : Except String α) = .ok b → a = b := by
  intro h
  simpa [pure, Except.pure] using h

/-! ## _call_to_import and the dotted-prefix fallback (C2) -/

theorem dottedPfxs_eq (s : String) :
    dottedPfxs s =
      match lastIdxOf '.' s.data with
      | some i => s :: dottedPfxs ⟨s.data.take i.val⟩
      | none => [s] := by
  rw [dottedPfxs]

theorem callToImportAux_spec (imports : List (String × (String × String)))
    (edges : List (String × String)) :
    ∀ (fuel : Nat) (s id : String), s.data.length < fuel →
      callToImportAux imports edges fuel s id =
        match resolveDotted imports s with
        | some iid => edges ++ [(id, iid)]
        | none => edges := by
  intro fuel
  induction fuel with
  | zero => intro s id h; omega
  | succ fuel ih =>
    intro s id h
    rw [callToImportAux]
    cases hl : dlookup s imports with
    | some v =>
      have hres : resolveDotted imports s = some v.1 := by
        rw [resolveDotted, dottedPfxs_eq]
        cases hdot : lastIdxOf '.' s.data with
        | some i => simp [List.findSome?_cons, hl]
        | none => simp [List.findSome?_cons, hl]
      rw [hres]
    | none =>
      cases hdot : lastIdxOf '.' s.data with
      | some i =>
        have hi := i.isLt
        have hlen : (String.mk (s.data.take i.val)).data.length < fuel := by
          simp only [List.length_take]
          omega
        show callToImportAux imports edges fuel ⟨s.data.take i.val⟩ id = _
        rw [ih ⟨s.data.take i.val⟩ id hlen]
        have hres : resolveDotted imports s = resolveDotted imports ⟨s.data.take i.val⟩ := by
          rw [resolveDotted, resolveDotted, dottedPfxs_eq, hdot, List.findSome?_cons]
          simp [hl]
        rw [hres]
      | none =>
        have hres : resolveDotted imports s = none := by
          rw [resolveDotted, dottedPfxs_eq, hdot]
          simp [List.findSome?_cons, hl]
        rw [hres]

/-- C2: `_call_to_import` realizes the dotted-prefix fallback exactly — it
returns `_edges_to_add` extended with one (call-site, import-node) pair
when some tried name (the callee, then each successive cut at the last
dot) is bound in the imports table, taking the first (longest) match's
node id; and returns `_edges_to_add` unchanged — a total function, no
error — when every tried name misses. -/
theorem c2_dotted_fallback (imports : List (String × (String × String)))
    (edges : List (String × String)) (functionCall id : String) :
    callToImport imports edges functionCall id =
      match resolveDotted imports functionCall with
      | some iid => edges ++ [(id, iid)]
      | none => edges :=
  callToImportAux_spec imports edges _ functionCall id (by omega)

/-! ## add_edge lemmas -/

theorem add_neighbor_adjacent (n : GNode) (b : String) (w : Rat) :
    (n.add_neighbor b w).adjacent = dinsert b w n.adjacent := by
  cases n; rfl

theorem addNeighborIn_keys (vd : List (String × GNode)) (a b : String) (w : Rat) :
    (addNeighborIn vd a b w).map Prod.fst = vd.map Prod.fst := by
  rw [addNeighborIn]
  cases h : dlookup a vd with
  | none => rfl
  | some n => exact keys_dinsert_of_present _ (by simp [h])

theorem addNeighborIn_mono {vd : List (String × GNode)} {a b x y : String} {w : Rat}
    {k k' : Nat} (h : hasEdge ⟨vd, k⟩ x y = true) :
    hasEdge ⟨addNeighborIn vd a b w, k'⟩ x y = true := by
  simp only [hasEdge] at h ⊢
  cases hx : dlookup x vd with
  | none => rw [hx] at h; simp at h
  | some n =>
    rw [hx] at h
    have h' : (dlookup y n.adjacent).isSome = true := h
    cases ha : dlookup a vd with
    | none =>
      simp only [addNeighborIn, ha, hx]
      exact h'
    | some na =>
      simp only [addNeighborIn, ha, dlookup_dinsert]
      by_cases hax : a = x
      · simp only [if_pos hax]
        have hna : na = n := by
          rw [hax] at ha
          rw [ha] at hx
          exact Option.some.inj hx
        subst hna
        simp only [add_neighbor_adjacent, dlookup_dinsert]
        by_cases hby : b = y
        · simp [hby]
        · simp only [if_neg hby]
          exact h'
      · simp only [if_neg hax, hx]
        exact h'

theorem addNeighborIn_adds {vd : List (String × GNode)} {a b : String} {w : Rat}
    {k : Nat} (ha : (dlookup a vd).isSome) :
    hasEdge ⟨addNeighborIn vd a b w, k⟩ a b = true := by
  obtain ⟨na, hna⟩ := Option.isSome_iff_exists.mp ha
  simp [hasEdge, addNeighborIn, hna, dlookup_dinsert, add_neighbor_adjacent]

theorem addNeighborIn_other {vd : List (String × GNode)} {a x : String}
    (hax : a ≠ x) (b : String) (w : Rat) :
    dlookup x (addNeighborIn vd a b w) = dlookup x vd := by
  cases ha : dlookup a vd with
  | none => simp only [addNeighborIn, ha]
  | some na => simp only [addNeighborIn, ha, dlookup_dinsert, if_neg hax]

theorem addEdge_ok_elim {g : Graph} {a b : String} {w : Rat} {bi : Bool} {g' : Graph}
    (h : addEdge g a b w bi = .ok g') :
    g'.vertDict.map Prod.fst = g.vertDict.map Prod.fst ∧
    g'.numVertices = g.numVertices := by
  rw [addEdge] at h
  by_cases h1 : (dlookup a g.vertDict).isNone
  · rw [if_pos h1] at h; simp at h
  · rw [if_neg h1] at h
    by_cases h2 : (dlookup b g.vertDict).isNone
    · rw [if_pos h2] at h; simp at h
    · rw [if_neg h2] at h
      simp only [Except.ok.injEq] at h
      subst h
      cases bi <;> simp [addNeighborIn_keys]

theorem addEdge_mono {g : Graph} {a b : String} {w : Rat} {bi : Bool} {g' : Graph}
    (h : addEdge g a b w bi = .ok g') (x y : String)
    (hxy : hasEdge g x y = true) : hasEdge g' x y = true := by
  rw [addEdge] at h
  by_cases h1 : (dlookup a g.vertDict).isNone
  · rw [if_pos h1] at h; simp at h
  · rw [if_neg h1] at h
    by_cases h2 : (dlookup b g.vertDict).isNone
    · rw [if_pos h2] at h; simp at h
    · rw [if_neg h2] at h
      simp only [Except.ok.injEq] at h
      subst h
      cases g with
      | mk vd num =>
        cases bi with
        | false =>
          show hasEdge ⟨addNeighborIn vd a b w, num⟩ x y = true
          exact @addNeighborIn_mono vd a b x y w num num hxy
        | true =>
          show hasEdge ⟨addNeighborIn (addNeighborIn vd a b w) b a w, num⟩ x y = true
          exact @addNeighborIn_mono (addNeighborIn vd a b w) b a x y w num num
            (@addNeighborIn_mono vd a b x y w num num hxy)

theorem addEdge_adds {g : Graph} {a b : String} {w : Rat} {g' : Graph}
    (h : addEdge g a b w false = .ok g') : hasEdge g' a b = true := by
  rw [addEdge] at h
  by_cases h1 : (dlookup a g.vertDict).isNone
  · rw [if_pos h1] at h; simp at h
  · rw [if_neg h1] at h
    by_cases h2 : (dlookup b g.vertDict).isNone
    · rw [if_pos h2] at h; simp at h
    · rw [if_neg h2] at h
      simp only [Except.ok.injEq] at h
      subst h
      cases g with
      | mk vd num =>
        have ha : (dlookup a vd).isSome := by
          cases hh : dlookup a vd with
          | none => exact absurd (by rw [show dlookup a (Graph.mk vd num).vertDict = dlookup a vd from rfl, hh]; rfl) h1
          | some nn => rfl
        show hasEdge ⟨addNeighborIn vd a b w, num⟩ a b = true
        exact @addNeighborIn_adds vd a b w num ha

theorem addEdge_other_source {g : Graph} {a b : String} {w : Rat} {g' : Graph}
    (h : addEdge g a b w false = .ok g') {x : String} (hax : a ≠ x) (y : String) :
    hasEdge g' x y = hasEdge g x y := by
  rw [addEdge] at h
  by_cases h1 : (dlookup a g.vertDict).isNone
  · rw [if_pos h1] at h; simp at h
  · rw [if_neg h1] at h
    by_cases h2 : (dlookup b g.vertDict).isNone
    · rw [if_pos h2] at h; simp at h
    · rw [if_neg h2] at h
      simp only [Except.ok.injEq] at h
      subst h
      cases g with
      | mk vd num =>
        show hasEdge ⟨addNeighborIn vd a b w, num⟩ x y = hasEdge ⟨vd, num⟩ x y
        simp only [hasEdge, addNeighborIn_other hax]

/-! ## _resolve_imports lemmas -/

theorem resolveCallDefs_mono {defs : List (String × String)} :
    ∀ {calls : List (String × String)} {g g' : Graph},
      resolveCallDefs defs g calls = .ok g' →
      ∀ x y, hasEdge g x y = true → hasEdge g' x y = true := by
  intro calls
  induction calls with
  | nil =>
    intro g g' h x y hxy
    rw [resolveCallDefs] at h
    have := except_pure_ok h
    subst this
    exact hxy
  | cons p rest ih =>
    obtain ⟨fname, cid⟩ := p
    intro g g' h x y hxy
    rw [resolveCallDefs] at h
    split_ifs at h with hemp
    · exact ih h x y hxy
    · cases hdl : dlookup fname defs with
      | none => simp only [hdl] at h; exact ih h x y hxy
      | some did =>
        simp only [hdl] at h
        obtain ⟨g1, ha1, h⟩ := except_bind_ok h
        obtain ⟨g2, ha2, h⟩ := except_bind_ok h
        exact ih h x y (addEdge_mono ha2 x y (addEdge_mono ha1 x y hxy))

theorem resolveCallDefs_adds {defs : List (String × String)} {f did : String} :
    ∀ {calls : List (String × String)} {g g' : Graph} {cid : String},
      resolveCallDefs defs g calls = .ok g' →
      (f, cid) ∈ calls → dlookup f defs = some did →
      hasEdge g' cid did = true ∧ hasEdge g' did cid = true := by
  intro calls
  induction calls with
  | nil => intro g g' cid _ hmem _; simp at hmem
  | cons p rest ih =>
    obtain ⟨fname, c0⟩ := p
    intro g g' cid h hmem hdef
    rw [resolveCallDefs] at h
    rcases List.mem_cons.mp hmem with hp | hp
    · have hf : fname = f := (congrArg Prod.fst hp).symm
      have hc : c0 = cid := (congrArg Prod.snd hp).symm
      subst hf; subst hc
      have hne : ¬ defs.isEmpty := by
        cases defs with
        | nil => rw [dlookup] at hdef; exact absurd hdef (by simp)
        | cons q qs => simp
      rw [if_neg hne] at h
      simp only [hdef] at h
      obtain ⟨g1, ha1, h⟩ := except_bind_ok h
      obtain ⟨g2, ha2, h⟩ := except_bind_ok h
      constructor
      · exact resolveCallDefs_mono h _ _ (addEdge_mono ha2 _ _ (addEdge_adds ha1))
      · exact resolveCallDefs_mono h _ _ (addEdge_adds ha2)
    · split_ifs at h with hemp
      · exact ih h hp hdef
      · cases hdl : dlookup fname defs with
        | none => simp only [hdl] at h; exact ih h hp hdef
        | some did' =>
          simp only [hdl] at h
          obtain ⟨g1, ha1, h⟩ := except_bind_ok h
          obtain ⟨g2, ha2, h⟩ := except_bind_ok h
          exact ih h hp hdef

theorem resolveCallDefs_other {defs : List (String × String)} {I : String}
    (hd : ∀ p ∈ defs, p.2 ≠ I) :
    ∀ {calls : List (String × String)} {g g' : Graph},
      resolveCallDefs defs g calls = .ok g' →
      (∀ p ∈ calls, p.2 ≠ I) →
      ∀ y, hasEdge g' I y = hasEdge g I y := by
  intro calls
  induction calls with
  | nil =>
    intro g g' h _ y
    rw [resolveCallDefs] at h
    have := except_pure_ok h
    subst this
    rfl
  | cons p rest ih =>
    obtain ⟨fname, cid⟩ := p
    intro g g' h hc y
    rw [resolveCallDefs] at h
    split_ifs at h with hemp
    · exact ih h (fun q hq => hc q (List.mem_cons_of_mem _ hq)) y
    · cases hdl : dlookup fname defs with
      | none => simp only [hdl] at h; exact ih h (fun q hq => hc q (List.mem_cons_of_mem _ hq)) y
      | some did =>
        simp only [hdl] at h
        obtain ⟨g1, ha1, h⟩ := except_bind_ok h
        obtain ⟨g2, ha2, h⟩ := except_bind_ok h
        have hcid : cid ≠ I := hc (fname, cid) (by simp)
        have hdid : did ≠ I := hd (fname, did) (dlookup_mem hdl)
        rw [ih h (fun q hq => hc q (List.mem_cons_of_mem _ hq)) y,
          addEdge_other_source ha2 (fun hh => hdid hh) y,
          addEdge_other_source ha1 (fun hh => hcid hh) y]

theorem drainEdges_mono :
    ∀ {edges : List (String × String)} {g g' : Graph},
      drainEdges g edges = .ok g' →
      ∀ x y, hasEdge g x y = true → hasEdge g' x y = true := by
  intro edges
  induction edges with
  | nil =>
    intro g g' h x y hxy
    rw [drainEdges] at h
    have := except_pure_ok h
    subst this
    exact hxy
  | cons p rest ih =>
    obtain ⟨a, b⟩ := p
    intro g g' h x y hxy
    rw [drainEdges] at h
    obtain ⟨g1, ha1, h⟩ := except_bind_ok h
    exact ih h x y (addEdge_mono ha1 x y hxy)

theorem drainEdges_adds {a b : String} :
    ∀ {edges : List (String × String)} {g g' : Graph},
      drainEdges g edges = .ok g' → (a, b) ∈ edges →
      hasEdge g' a b = true := by
  intro edges
  induction edges with
  | nil => intro g g' _ hmem; simp at hmem
  | cons p rest ih =>
    obtain ⟨x, y⟩ := p
    intro g g' h hmem
    rw [drainEdges] at h
    obtain ⟨g1, ha1, h⟩ := except_bind_ok h
    rcases List.mem_cons.mp hmem with hp | hp
    · have hx : x = a := (congrArg Prod.fst hp).symm
      have hy : y = b := (congrArg Prod.snd hp).symm
      subst hx; subst hy
      exact drainEdges_mono h _ _ (addEdge_adds ha1)
    · exact ih h hp

theorem drainEdges_other {I : String} :
    ∀ {edges : List (String × String)} {g g' : Graph},
      drainEdges g edges = .ok g' → (∀ e ∈ edges, e.1 ≠ I) →
      ∀ y, hasEdge g' I y = hasEdge g I y := by
  intro edges
  induction edges with
  | nil =>
    intro g g' h _ y
    rw [drainEdges] at h
    have := except_pure_ok h
    subst this
    rfl
  | cons p rest ih =>
    obtain ⟨a, b⟩ := p
    intro g g' h he y
    rw [drainEdges] at h
    obtain ⟨g1, ha1, h⟩ := except_bind_ok h
    have ha : a ≠ I := he (a, b) (by simp)
    rw [ih h (fun q hq => he q (List.mem_cons_of_mem _ hq)) y,
      addEdge_other_source ha1 (fun hh => ha hh) y]

/-- C3: whenever the same name is recorded both as a call and as a
definition, successful resolution installs both the call→definition and
the definition→call edge between the recorded node ids. -/
theorem c3_call_def_bidirectional (st st' : ParserState) (f cid did : String)
    (hres : resolveImports st = .ok st')
    (hcall : dlookup f st.functionCalls = some cid)
    (hdef : dlookup f st.functionDefinitions = some did) :
    hasEdge st'.ast cid did = true ∧ hasEdge st'.ast did cid = true := by
  rw [resolveImports] at hres
  have hne : ¬ st.functionCalls.isEmpty := by
    cases hfc : st.functionCalls with
    | nil => rw [hfc, dlookup] at hcall; exact absurd hcall (by simp)
    | cons q qs => simp
  rw [if_neg hne] at hres
  obtain ⟨g1, h1, hres⟩ := except_bind_ok hres
  obtain ⟨g2, h2, hres⟩ := except_bind_ok hres
  have hst : _ = st' := except_pure_ok hres
  subst hst
  have hedges := resolveCallDefs_adds h1 (dlookup_mem hcall) hdef
  exact ⟨drainEdges_mono h2 _ _ hedges.1, drainEdges_mono h2 _ _ hedges.2⟩

/-- Witness for C3 on a concrete state with `f` both called and defined. -/
theorem c3_witness :
    ∃ st', resolveImports stC3 = .ok st' ∧
      hasEdge st'.ast "c1" "d1" = true ∧ hasEdge st'.ast "d1" "c1" = true := by
  have hok : (resolveImports stC3).toOption.isSome = true := by decide
  cases hres : resolveImports stC3 with
  | error e => rw [hres] at hok; simp [Except.toOption] at hok
  | ok st' =>
    have h := c3_call_def_bidirectional stC3 st' "f" "c1" "d1" hres rfl rfl
    exact ⟨st', rfl, h.1, h.2⟩

theorem resolveImports_other {st st' : ParserState} {I : String}
    (h : resolveImports st = .ok st') (hU : UntouchedId I st) :
    ∀ y, hasEdge st'.ast I y = hasEdge st.ast I y := by
  rw [resolveImports] at h
  split_ifs at h with hemp
  · have hst := except_pure_ok h
    subst hst
    intro y
    rfl
  · obtain ⟨g1, h1, h⟩ := except_bind_ok h
    obtain ⟨g2, h2, h⟩ := except_bind_ok h
    have hst := except_pure_ok h
    subst hst
    intro y
    obtain ⟨hc, hd, he⟩ := hU
    show hasEdge g2 I y = hasEdge st.ast I y
    rw [drainEdges_other h2 he y, resolveCallDefs_other hd h1 hc y]

theorem resolveCallDefs_keys {defs : List (String × String)} :
    ∀ {calls : List (String × String)} {g g' : Graph},
      resolveCallDefs defs g calls = .ok g' →
      g'.vertDict.map Prod.fst = g.vertDict.map Prod.fst ∧
      g'.numVertices = g.numVertices := by
  intro calls
  induction calls with
  | nil =>
    intro g g' h
    rw [resolveCallDefs] at h
    have hg := except_pure_ok h
    subst hg
    exact ⟨rfl, rfl⟩
  | cons p rest ih =>
    obtain ⟨fname, cid⟩ := p
    intro g g' h
    rw [resolveCallDefs] at h
    split_ifs at h with hemp
    · exact ih h
    · cases hdl : dlookup fname defs with
      | none => simp only [hdl] at h; exact ih h
      | some did =>
        simp only [hdl] at h
        obtain ⟨g1, ha1, h⟩ := except_bind_ok h
        obtain ⟨g2, ha2, h⟩ := except_bind_ok h
        have k1 := addEdge_ok_elim ha1
        have k2 := addEdge_ok_elim ha2
        have k3 := ih h
        exact ⟨by rw [k3.1, k2.1, k1.1], by rw [k3.2, k2.2, k1.2]⟩

theorem drainEdges_keys :
    ∀ {edges : List (String × String)} {g g' : Graph},
      drainEdges g edges = .ok g' →
      g'.vertDict.map Prod.fst = g.vertDict.map Prod.fst ∧
      g'.numVertices = g.numVertices := by
  intro edges
  induction edges with
  | nil =>
    intro g g' h
    rw [drainEdges] at h
    have hg := except_pure_ok h
    subst hg
    exact ⟨rfl, rfl⟩
  | cons p rest ih =>
    obtain ⟨a, b⟩ := p
    intro g g' h
    rw [drainEdges] at h
    obtain ⟨g1, ha1, h⟩ := except_bind_ok h
    have k1 := addEdge_ok_elim ha1
    have k3 := ih h
    exact ⟨by rw [k3.1, k1.1], by rw [k3.2, k1.2]⟩

theorem resolveImports_keys {st st' : ParserState}
    (h : resolveImports st = .ok st') :
    st'.ast.vertDict.map Prod.fst = st.ast.vertDict.map Prod.fst ∧
    st'.ast.numVertices = st.ast.numVertices := by
  rw [resolveImports] at h
  split_ifs at h with hemp
  · have hst := except_pure_ok h
    subst hst
    exact ⟨rfl, rfl⟩
  · obtain ⟨g1, h1, h⟩ := except_bind_ok h
    obtain ⟨g2, h2, h⟩ := except_bind_ok h
    have hst := except_pure_ok h
    subst hst
    have k1 := resolveCallDefs_keys h1
    have k2 := drainEdges_keys h2
    constructor
    · show g2.vertDict.map Prod.fst = _
      rw [k2.1, k1.1]
    · show g2.numVertices = _
      rw [k2.2, k1.2]

/-- C6 fails on the code as stated: in `import f` / `f()` / `f()`, the
walk gives the first call site id `call_0` and the import's binding node id
`dotted_name_0`; `_call_to_import` queues an edge per call site, so after
resolution the EARLIER call site `call_0` does carry a resolved
call→import edge — while the `calls` table indeed retains only the later
site `call_1`. -/
theorem c6_counterexample :
    ((parseFile BUILTINS "t.py" tTwoCalls).toOption.map
      (fun p => (hasEdge p.1.ast "call_0" "dotted_name_0",
                 dlookup "f" p.1.functionCalls))) = some (true, some "call_1") := by
  decide

/-- C6, amended: a later call overwrites the earlier call's entry in the
calls table, and the call↔definition phase of resolution touches only
recorded ids — a call site absent from the tables (in particular any
earlier site of a name called again later) receives no call→definition
edge; queued call→import edges, however, exist per call site. -/
theorem c6_amended :
    (∀ (st : ParserState) (functionName id : String),
      dlookup functionName (handleCall st functionName id).functionCalls = some id) ∧
    (∀ (defs : List (String × String)) (g : Graph) (calls : List (String × String))
        (g' : Graph) (I : String),
      resolveCallDefs defs g calls = .ok g' →
      (∀ p ∈ calls, p.2 ≠ I) → (∀ p ∈ defs, p.2 ≠ I) →
      ∀ y, hasEdge g' I y = hasEdge g I y) := by
  constructor
  · intro st f i
    show dlookup f (dinsert f i st.functionCalls) = some i
    rw [dlookup_dinsert, if_pos rfl]
  · intro defs g calls g' I h hc hd
    exact resolveCallDefs_other hd h hc

/-- Witness for the amended C6 at concrete inputs. -/
theorem c6_witness :
    dlookup "f" (handleCall stC3 "f" "c9").functionCalls = some "c9" ∧
    ∃ g', resolveCallDefs [("f", "d1")] gC3 [("f", "c1")] = .ok g' ∧
      hasEdge g' "zz" "d1" = hasEdge gC3 "zz" "d1" := by
  constructor
  · exact c6_amended.1 stC3 "f" "c9"
  · have hok : (resolveCallDefs [("f", "d1")] gC3 [("f", "c1")]).toOption.isSome = true := by
      decide
    cases hres : resolveCallDefs [("f", "d1")] gC3 [("f", "c1")] with
    | error e => rw [hres] at hok; simp [Except.toOption] at hok
    | ok g' =>
      exact ⟨g', rfl, c6_amended.2 [("f", "d1")] gC3 [("f", "c1")] g' "zz" hres
        (by decide) (by decide) "d1"⟩

/-! ## Id shapes and tree facts -/

theorem string_data_inj {a b : String} (h : a.data = b.data) : a = b := by
  cases a; cases b; exact congrArg String.mk (by simpa using h)

theorem mkId_data (b : String) (c : Nat) :
    (b ++ "_" ++ natStr c).data = b.data ++ '_' :: natChars c := by
  rw [String.data_append, String.data_append]
  simp [natStr]

theorem rootId_data (fp : String) :
    (rootId fp).data = "module".data ++ (' ' :: '|' :: ' ' :: fp.data) := by
  rw [rootId, String.data_append]
  rfl

theorem baseOk_displayName {node : TSNode} (hmod : node.ty ≠ "module")
    (hsp : ' ' ∉ node.ty.data) (text : Option String) :
    baseOk (displayName node text) := by
  rw [displayName.eq_def]
  cases text with
  | none => exact Or.inl hsp
  | some tx =>
    show baseOk (if tx ≠ "" then node.ty ++ " | " ++ tx else node.ty)
    by_cases htx : tx ≠ ""
    · rw [if_pos htx]
      refine Or.inr ⟨node.ty, tx.data, ?_, hsp, hmod⟩
      rw [String.data_append, String.data_append]
      simp
    · rw [if_neg htx]
      exact Or.inl hsp

theorem id_shape_ne_root {b : String} {c : Nat} {fp : String} (hb : baseOk b) :
    b.data ++ '_' :: natChars c ≠ (rootId fp).data := by
  intro h
  rw [rootId_data] at h
  rcases hb with hb | ⟨ty, rest, hbd, hts, htm⟩
  · have hsp : ' ' ∈ "module".data ++ (' ' :: '|' :: ' ' :: fp.data) :=
      List.mem_append_right _ (by simp)
    rw [← h] at hsp
    rcases List.mem_append.mp hsp with hx | hx
    · exact hb hx
    · rcases List.mem_cons.mp hx with hx | hx
      · exact absurd hx (by decide)
      · exact space_notMem_natChars c hx
  · rw [hbd] at h
    have h' : ty.data ++ ' ' :: ('|' :: ' ' :: (rest ++ '_' :: natChars c)) =
        "module".data ++ ' ' :: ('|' :: ' ' :: fp.data) := by
      simpa [List.append_assoc] using h
    obtain ⟨h1, _⟩ := split_at_first_sep h' hts (by decide)
    exact htm (string_data_inj h1)

theorem id_inj {b1 b2 : String} {c1 c2 : Nat}
    (h : b1.data ++ '_' :: natChars c1 = b2.data ++ '_' :: natChars c2) :
    b1 = b2 ∧ c1 = c2 := by
  obtain ⟨hb, hd⟩ := split_at_last_sep h (underscore_notMem_natChars c1)
    (underscore_notMem_natChars c2)
  exact ⟨string_data_inj hb, natChars_inj hd⟩

theorem contains_of_mem {l : List String} {a : String} (h : a ∈ l) :
    l.contains a = true :=
  List.elem_eq_true_of_mem h

theorem allNodesB_elim {p : TSNode → Bool} {t : TSNode} (h : allNodesB p t = true) :
    p t = true ∧ allNodesListB p t.children = true := by
  cases t with
  | mk ty nm tx sp ep cs =>
    rw [allNodesB] at h
    exact (Bool.and_eq_true _ _).mp h

theorem allNodesListB_elim {p : TSNode → Bool} {c : TSNode} {rest : List TSNode}
    (h : allNodesListB p (c :: rest) = true) :
    allNodesB p c = true ∧ allNodesListB p rest = true := by
  rw [allNodesListB] at h
  exact (Bool.and_eq_true _ _).mp h

theorem notModule_of {t : TSNode} (h : notModuleB t = true) : t.ty ≠ "module" :=
  of_decide_eq_true h

theorem noSpace_of {t : TSNode} (h : noSpaceTyB t = true) : ' ' ∉ t.ty.data :=
  of_decide_eq_true h

theorem goodState_init (fp : String) : GoodState fp initState := by
  refine ⟨rfl, ?_, ?_, ?_, ?_⟩
  · intro k hk
    simp [initState] at hk
  · intro p hp
    simp [initState] at hp
  · intro p hp
    simp [initState] at hp
  · intro e he
    simp [initState] at he

/-! ## Handler step lemmas -/

theorem callToImport_mem {imports : List (String × (String × String))}
    {edges : List (String × String)} {f i : String} {e : String × String}
    (h : e ∈ callToImport imports edges f i) : e ∈ edges ∨ e.1 = i := by
  rw [callToImport, callToImportAux_spec imports edges _ f i (by omega)] at h
  cases hres : resolveDotted imports f with
  | some iid =>
    simp only [hres] at h
    rcases List.mem_append.mp h with h | h
    · exact Or.inl h
    · simp at h
      exact Or.inr (by rw [h])
  | none =>
    simp only [hres] at h
    exact Or.inl h

theorem handleImport_elim {st : ParserState} {node : TSNode} {tp : Option TSNode}
    {ci : Option Nat} {id : String} {st' : ParserState}
    (h : handleImport st node tp ci id = .ok st') :
    ∃ entries, importEntries node tp ci id = .ok entries ∧
      st' = { st with
        imports := entries.foldl (fun acc e => dinsert e.1 e.2 acc) st.imports } := by
  rw [handleImport] at h
  obtain ⟨entries, h1, h2⟩ := except_bind_ok h
  exact ⟨entries, h1, (except_pure_ok h2).symm⟩

theorem handleDefinition_elim {st : ParserState} {node : TSNode} {id : String}
    {st' : ParserState} (h : handleDefinition st node id = .ok st') :
    ∃ c1, getChild node 1 = .ok c1 ∧
      st' = { st with
        functionDefinitions := dinsert c1.text id st.functionDefinitions } := by
  rw [handleDefinition] at h
  obtain ⟨c1, h1, h2⟩ := except_bind_ok h
  exact ⟨c1, h1, (except_pure_ok h2).symm⟩

theorem addVertex_elim {g : Graph} {n : GNode} {out : Graph × String}
    (h : addVertex g n = .ok out) :
    out.1 = ⟨dinsert n.id n g.vertDict, g.numVertices + 1⟩ ∧ out.2 = n.id := by
  rw [addVertex] at h
  split at h
  · split_ifs at h with hp
    simp only [Except.ok.injEq] at h
    exact ⟨(congrArg Prod.fst h).symm, (congrArg Prod.snd h).symm⟩
  · simp only [Except.ok.injEq] at h
    exact ⟨(congrArg Prod.fst h).symm, (congrArg Prod.snd h).symm⟩

theorem handlePhase_elim {builtins : List String} {st1 : ParserState} {node : TSNode}
    {tp : Option TSNode} {ci : Option Nat} {id : String} {st4 : ParserState}
    (h : handlePhase builtins st1 node tp ci id = .ok st4) :
    st4.counts = st1.counts ∧ st4.ast = st1.ast ∧
    (∀ p ∈ st4.functionCalls, p ∈ st1.functionCalls ∨ p.2 = id) ∧
    (∀ p ∈ st4.functionDefinitions, p ∈ st1.functionDefinitions ∨ p.2 = id) ∧
    (∀ e ∈ st4.edgesToAdd, e ∈ st1.edgesToAdd ∨ e.1 = id) ∧
    (∀ b ∈ builtins, dlookup b st1.functionCalls = none →
      dlookup b st4.functionCalls = none) := by
  rw [handlePhase] at h
  obtain ⟨st2, h2, h⟩ := except_bind_ok h
  obtain ⟨st3, h3, h⟩ := except_bind_ok h
  have S2 : st2.counts = st1.counts ∧ st2.ast = st1.ast ∧
      st2.functionDefinitions = st1.functionDefinitions ∧
      (∀ p ∈ st2.functionCalls, p ∈ st1.functionCalls ∨ p.2 = id) ∧
      (∀ e ∈ st2.edgesToAdd, e ∈ st1.edgesToAdd ∨ e.1 = id) ∧
      (∀ b ∈ builtins, dlookup b st1.functionCalls = none →
        dlookup b st2.functionCalls = none) := by
    rw [callPhase] at h2
    split_ifs at h2 with hcall
    · obtain ⟨c0, hc0, h2⟩ := except_bind_ok h2
      split_ifs at h2 with hbi
      · have hs := except_pure_ok h2
        subst hs
        exact ⟨rfl, rfl, rfl, fun p hp => Or.inl hp, fun e he => Or.inl he,
          fun b _ hb => hb⟩
      · have hs := except_pure_ok h2
        subst hs
        refine ⟨rfl, rfl, rfl, ?_, ?_, ?_⟩
        · intro p hp
          have hp' : p ∈ dinsert c0.text id st1.functionCalls := hp
          rcases mem_dinsert hp' with hp1 | hp1
          · exact Or.inr (by rw [hp1])
          · exact Or.inl hp1
        · intro e he
          have he' : e ∈ callToImport st1.imports st1.edgesToAdd c0.text id := he
          exact callToImport_mem he'
        · intro b hbmem hbnone
          show dlookup b (dinsert c0.text id st1.functionCalls) = none
          rw [dlookup_dinsert, if_neg]
          · exact hbnone
          · intro hh
            exact hbi (by rw [hh]; exact contains_of_mem hbmem)
    · have hs := except_pure_ok h2
      subst hs
      exact ⟨rfl, rfl, rfl, fun p hp => Or.inl hp, fun e he => Or.inl he,
        fun b _ hb => hb⟩
  have S3 : st3.counts = st2.counts ∧ st3.ast = st2.ast ∧
      st3.functionCalls = st2.functionCalls ∧
      st3.functionDefinitions = st2.functionDefinitions ∧
      st3.edgesToAdd = st2.edgesToAdd := by
    rw [importPhase.eq_def] at h3
    split_ifs at h3 with hal hdn
    · obtain ⟨entries, hE, hs⟩ := handleImport_elim h3
      subst hs
      exact ⟨rfl, rfl, rfl, rfl, rfl⟩
    · split at h3
      · simp at h3
      · split_ifs at h3 with hsw
        · obtain ⟨entries, hE, hs⟩ := handleImport_elim h3
          subst hs
          exact ⟨rfl, rfl, rfl, rfl, rfl⟩
        · have hs := except_pure_ok h3
          subst hs
          exact ⟨rfl, rfl, rfl, rfl, rfl⟩
    · have hs := except_pure_ok h3
      subst hs
      exact ⟨rfl, rfl, rfl, rfl, rfl⟩
  have S4 : st4.counts = st3.counts ∧ st4.ast = st3.ast ∧
      st4.functionCalls = st3.functionCalls ∧
      (∀ p ∈ st4.functionDefinitions, p ∈ st3.functionDefinitions ∨ p.2 = id) ∧
      st4.edgesToAdd = st3.edgesToAdd := by
    rw [defPhase] at h
    split_ifs at h with hdef
    · obtain ⟨c1, hc1, hs⟩ := handleDefinition_elim h
      subst hs
      refine ⟨rfl, rfl, rfl, ?_, rfl⟩
      intro p hp
      have hp' : p ∈ dinsert c1.text id st3.functionDefinitions := hp
      rcases mem_dinsert hp' with hp1 | hp1
      · exact Or.inr (by rw [hp1])
      · exact Or.inl hp1
    · have hs := except_pure_ok h
      subst hs
      exact ⟨rfl, rfl, rfl, fun p hp => Or.inl hp, rfl⟩
  obtain ⟨c2a, a2a, d2, fc2, e2, nb2⟩ := S2
  obtain ⟨c3, a3, f3, d3, e3⟩ := S3
  obtain ⟨c4, a4, f4, d4, e4⟩ := S4
  refine ⟨by rw [c4, c3, c2a], by rw [a4, a3, a2a], ?_, ?_, ?_, ?_⟩
  · intro p hp
    rw [f4, f3] at hp
    exact fc2 p hp
  · intro p hp
    rcases d4 p hp with hp1 | hp1
    · rw [d3, d2] at hp1
      exact Or.inl hp1
    · exact Or.inr hp1
  · intro e he
    rw [e4, e3] at he
    exact e2 e he
  · intro b hb hnone
    rw [f4, f3]
    exact nb2 b hb hnone

/-! ## The insertion step preserves the id invariant -/

theorem fresh_of_goodState {fp : String} {st : ParserState} (hgood : GoodState fp st)
    {b : String} (hb : baseOk b) {cNew : Nat}
    (hc : ∀ m, dlookup b st.counts = some m → m < cNew) :
    (b ++ "_" ++ natStr cNew) ∉ st.ast.vertDict.map Prod.fst := by
  intro hmem
  rcases hgood.2.1 _ hmem with hk | ⟨b', c', m', hkd, _hb', hl', hle'⟩
  · refine @id_shape_ne_root b cNew fp hb ?_
    rw [← mkId_data]
    exact congrArg String.data hk
  · rw [mkId_data] at hkd
    obtain ⟨hbe, hce⟩ := id_inj hkd
    subst hbe
    subst hce
    have := hc m' hl'
    omega

theorem processNode_good {builtins : List String} {fp : String} {st : ParserState}
    {node : TSNode} {tp : Option TSNode} {ci : Option Nat} {ln : Option GNode}
    {st' : ParserState} {n_ : GNode} {id : String}
    (hok : processNode builtins fp st node tp ci ln = .ok (st', n_, id))
    (hmod : node.ty ≠ "module") (hsp : ' ' ∉ node.ty.data)
    (hgood : GoodState fp st) :
    GoodState fp st' ∧
    st'.ast.vertDict.map Prod.fst = st.ast.vertDict.map Prod.fst ++ [id] ∧
    id ∉ st.ast.vertDict.map Prod.fst ∧
    (NoBuiltinCalls builtins st → NoBuiltinCalls builtins st') ∧
    (∀ I, I ∈ st.ast.vertDict.map Prod.fst → UntouchedId I st → UntouchedId I st') := by
  simp only [processNode] at hok
  obtain ⟨text, hT, hok⟩ := except_bind_ok hok
  obtain ⟨gi, hAV, hok⟩ := except_bind_ok hok
  obtain ⟨st4, hHP, hok⟩ := except_bind_ok hok
  have hfin := except_pure_ok hok
  have hst' : st4 = st' := congrArg (fun q => q.1) hfin
  have hid : gi.2 = id := congrArg (fun q => q.2.2) hfin
  subst hst'
  subst hid
  obtain ⟨hg1, hg2⟩ := addVertex_elim hAV
  simp only [GNode.id] at hg1 hg2
  have hbOk : baseOk (displayName node text) := baseOk_displayName hmod hsp text
  obtain ⟨cNew, hnc, hcbound⟩ :
      ∃ cNew, assignName fp node (displayName node text) st.counts =
          (displayName node text ++ "_" ++ natStr cNew,
            dinsert (displayName node text) cNew st.counts) ∧
        ∀ m, dlookup (displayName node text) st.counts = some m → m < cNew := by
    cases hcnt : dlookup (displayName node text) st.counts with
    | none =>
      refine ⟨0, by rw [assignName.eq_def, if_neg hmod, hcnt], ?_⟩
      intro m hm
      cases hm
    | some c =>
      refine ⟨c + 1, by rw [assignName.eq_def, if_neg hmod, hcnt], ?_⟩
      intro m hm
      have hcm : c = m := Option.some.inj hm
      omega
  rw [hnc] at hg1 hg2 hHP
  dsimp only at hg1 hg2 hHP
  have hfreshv : (displayName node text ++ "_" ++ natStr cNew) ∉
      st.ast.vertDict.map Prod.fst := fresh_of_goodState hgood hbOk hcbound
  rw [hg2] at hHP ⊢
  have hnone : dlookup (displayName node text ++ "_" ++ natStr cNew)
      st.ast.vertDict = none := by
    cases hh : dlookup (displayName node text ++ "_" ++ natStr cNew) st.ast.vertDict with
    | none => rfl
    | some x =>
      exact absurd (dlookup_isSome_iff_mem_keys.mp (by rw [hh]; rfl)) hfreshv
  have hkeys1 : gi.1.vertDict.map Prod.fst =
      st.ast.vertDict.map Prod.fst ++ [displayName node text ++ "_" ++ natStr cNew] := by
    rw [hg1]
    show (dinsert (displayName node text ++ "_" ++ natStr cNew) _
      st.ast.vertDict).map Prod.fst = _
    rw [dinsert_of_absent _ hnone]
    simp
  have hlen1 : gi.1.vertDict.length = st.ast.vertDict.length + 1 := by
    rw [hg1]
    exact length_dinsert_of_absent _ hnone
  have hnum1 : gi.1.numVertices = st.ast.numVertices + 1 := by rw [hg1]
  obtain ⟨hc4, ha4, hfc4, hfd4, he4, hnb4⟩ := handlePhase_elim hHP
  have hkeys4 : st4.ast.vertDict.map Prod.fst =
      st.ast.vertDict.map Prod.fst ++ [displayName node text ++ "_" ++ natStr cNew] := by
    rw [ha4]
    exact hkeys1
  have hcounts4 : st4.counts = dinsert (displayName node text) cNew st.counts := hc4
  refine ⟨?_, hkeys4, hfreshv, ?_, ?_⟩
  · refine ⟨?_, ?_, ?_, ?_, ?_⟩
    · rw [ha4]
      show gi.1.numVertices = gi.1.vertDict.length
      rw [hnum1, hlen1, hgood.1]
    · intro k hk
      rw [hkeys4] at hk
      rcases List.mem_append.mp hk with hk | hk
      · rcases hgood.2.1 k hk with hk1 | ⟨b1, c1, m1, hkd1, hb1, hl1, hle1⟩
        · exact Or.inl hk1
        · right
          rw [hcounts4]
          by_cases hbb : displayName node text = b1
          · refine ⟨b1, c1, cNew, hkd1, hb1, ?_, ?_⟩
            · rw [dlookup_dinsert, if_pos hbb]
            · rw [← hbb] at hl1
              have := hcbound m1 hl1
              omega
          · exact ⟨b1, c1, m1, hkd1, hb1, by rw [dlookup_dinsert, if_neg hbb]; exact hl1, hle1⟩
      · simp at hk
        right
        rw [hcounts4, hk]
        exact ⟨displayName node text, cNew, cNew, mkId_data _ _, hbOk,
          by rw [dlookup_dinsert, if_pos rfl], le_refl _⟩
    · intro p hp
      rw [hkeys4]
      rcases hfc4 p hp with hp1 | hp1
      · exact List.mem_append_left _ (hgood.2.2.1 p hp1)
      · rw [hp1]
        exact List.mem_append_right _ (by simp)
    · intro p hp
      rw [hkeys4]
      rcases hfd4 p hp with hp1 | hp1
      · exact List.mem_append_left _ (hgood.2.2.2.1 p hp1)
      · rw [hp1]
        exact List.mem_append_right _ (by simp)
    · intro e he
      rw [hkeys4]
      rcases he4 e he with he1 | he1
      · exact List.mem_append_left _ (hgood.2.2.2.2 e he1)
      · rw [he1]
        exact List.mem_append_right _ (by simp)
  · intro hnb bn hbn
    exact hnb4 bn hbn (hnb bn hbn)
  · intro I hImem hU
    have hIne : displayName node text ++ "_" ++ natStr cNew ≠ I := by
      intro hh
      rw [hh] at hfreshv
      exact hfreshv hImem
    refine ⟨?_, ?_, ?_⟩
    · intro p hp
      rcases hfc4 p hp with hp1 | hp1
      · exact hU.1 p hp1
      · rw [hp1]
        exact hIne
    · intro p hp
      rcases hfd4 p hp with hp1 | hp1
      · exact hU.2.1 p hp1
      · rw [hp1]
        exact hIne
    · intro e he
      rcases he4 e he with he1 | he1
      · exact hU.2.2 e he1
      · rw [he1]
        exact hIne

theorem tsSize_ne_zero (t : TSNode) : tsSize t ≠ 0 := by
  cases t with
  | mk ty nm tx sp ep cs =>
    rw [tsSize]
    omega

theorem goodState_addEdge {fp : String} {st : ParserState} {a b : String} {g' : Graph}
    (hgood : GoodState fp st) (h : addEdge st.ast a b 1 false = .ok g') :
    GoodState fp { st with ast := g' } := by
  obtain ⟨hk, hn⟩ := addEdge_ok_elim h
  have hlen : g'.vertDict.length = st.ast.vertDict.length := by
    have := congrArg List.length hk
    simpa using this
  refine ⟨?_, ?_, ?_, ?_, ?_⟩
  · show g'.numVertices = g'.vertDict.length
    rw [hn, hlen, hgood.1]
  · intro k hkk
    have hkk' : k ∈ st.ast.vertDict.map Prod.fst := by
      rw [← hk]
      exact hkk
    exact hgood.2.1 k hkk'
  · intro p hp
    show p.2 ∈ g'.vertDict.map Prod.fst
    rw [hk]
    exact hgood.2.2.1 p hp
  · intro p hp
    show p.2 ∈ g'.vertDict.map Prod.fst
    rw [hk]
    exact hgood.2.2.2.1 p hp
  · intro e he
    show e.1 ∈ g'.vertDict.map Prod.fst
    rw [hk]
    exact hgood.2.2.2.2 e he

theorem processNode_module {builtins : List String} {fp : String} {st : ParserState}
    {node : TSNode} {tp : Option TSNode} {ci : Option Nat} {ln : Option GNode}
    {st' : ParserState} {n_ : GNode} {id : String}
    (hok : processNode builtins fp st node tp ci ln = .ok (st', n_, id))
    (hmod : node.ty = "module")
    (hroot : rootId fp ∉ st.ast.vertDict.map Prod.fst)
    (hgood : GoodState fp st) :
    GoodState fp st' ∧ id = rootId fp ∧
    st'.ast.vertDict.map Prod.fst = st.ast.vertDict.map Prod.fst ++ [rootId fp] := by
  simp only [processNode] at hok
  obtain ⟨text, hT, hok⟩ := except_bind_ok hok
  obtain ⟨gi, hAV, hok⟩ := except_bind_ok hok
  obtain ⟨st4, hHP, hok⟩ := except_bind_ok hok
  have hfin := except_pure_ok hok
  have hst' : st4 = st' := congrArg (fun q => q.1) hfin
  have hid : gi.2 = id := congrArg (fun q => q.2.2) hfin
  subst hst'
  subst hid
  obtain ⟨hg1, hg2⟩ := addVertex_elim hAV
  simp only [GNode.id] at hg1 hg2
  have hms : ("module" ++ " | " : String) = "module | " := by decide
  have hnc : assignName fp node (displayName node text) st.counts =
      (rootId fp, st.counts) := by
    rw [assignName.eq_def, if_pos hmod, hmod, hms, ← rootId]
  rw [hnc] at hg1 hg2 hHP
  dsimp only at hg1 hg2 hHP
  rw [hg2] at hHP ⊢
  have hnone : dlookup (rootId fp) st.ast.vertDict = none := by
    cases hh : dlookup (rootId fp) st.ast.vertDict with
    | none => rfl
    | some x =>
      exact absurd (dlookup_isSome_iff_mem_keys.mp (by rw [hh]; rfl)) hroot
  have hkeys1 : gi.1.vertDict.map Prod.fst =
      st.ast.vertDict.map Prod.fst ++ [rootId fp] := by
    rw [hg1]
    show (dinsert (rootId fp) _ st.ast.vertDict).map Prod.fst = _
    rw [dinsert_of_absent _ hnone]
    simp
  have hlen1 : gi.1.vertDict.length = st.ast.vertDict.length + 1 := by
    rw [hg1]
    exact length_dinsert_of_absent _ hnone
  have hnum1 : gi.1.numVertices = st.ast.numVertices + 1 := by rw [hg1]
  obtain ⟨hc4, ha4, hfc4, hfd4, he4, hnb4⟩ := handlePhase_elim hHP
  have hcounts4 : st4.counts = st.counts := hc4
  have hkeys4 : st4.ast.vertDict.map Prod.fst =
      st.ast.vertDict.map Prod.fst ++ [rootId fp] := by
    rw [ha4]
    exact hkeys1
  refine ⟨⟨?_, ?_, ?_, ?_, ?_⟩, rfl, hkeys4⟩
  · rw [ha4]
    show gi.1.numVertices = gi.1.vertDict.length
    rw [hnum1, hlen1, hgood.1]
  · intro k hk
    rw [hkeys4] at hk
    rcases List.mem_append.mp hk with hk | hk
    · rcases hgood.2.1 k hk with hk1 | ⟨b1, c1, m1, hkd1, hb1, hl1, hle1⟩
      · exact Or.inl hk1
      · right
        rw [hcounts4]
        exact ⟨b1, c1, m1, hkd1, hb1, hl1, hle1⟩
    · simp at hk
      exact Or.inl hk
  · intro p hp
    rw [hkeys4]
    rcases hfc4 p hp with hp1 | hp1
    · exact List.mem_append_left _ (hgood.2.2.1 p hp1)
    · rw [hp1]
      exact List.mem_append_right _ (by simp)
  · intro p hp
    rw [hkeys4]
    rcases hfd4 p hp with hp1 | hp1
    · exact List.mem_append_left _ (hgood.2.2.2.1 p hp1)
    · rw [hp1]
      exact List.mem_append_right _ (by simp)
  · intro e he
    rw [hkeys4]
    rcases he4 e he with he1 | he1
    · exact List.mem_append_left _ (hgood.2.2.2.2 e he1)
    · rw [he1]
      exact List.mem_append_right _ (by simp)

theorem parseChildrenGo_good {builtins : List String} {fp : String}
    {recurse : ParserState → TSNode → Option TSNode → Option Nat → Option GNode →
      Except String (ParserState × String)}
    (hrec : ∀ st c tp ci ln st' id, allNodesB notModuleB c = true →
      allNodesB noSpaceTyB c = true →
      recurse st c tp ci ln = .ok (st', id) → GoodState fp st →
      GoodState fp st' ∧
      (NoBuiltinCalls builtins st → NoBuiltinCalls builtins st') ∧
      (∀ I, I ∈ st.ast.vertDict.map Prod.fst → UntouchedId I st → UntouchedId I st') ∧
      (∀ I, I ∈ st.ast.vertDict.map Prod.fst → I ∈ st'.ast.vertDict.map Prod.fst)) :
    ∀ (cs : List TSNode) (st : ParserState) (i : Nat) (tparent : TSNode) (n_ : GNode)
      (st2 : ParserState),
      allNodesListB notModuleB cs = true → allNodesListB noSpaceTyB cs = true →
      parseChildrenGo recurse st cs i tparent n_ = .ok st2 → GoodState fp st →
      GoodState fp st2 ∧
      (NoBuiltinCalls builtins st → NoBuiltinCalls builtins st2) ∧
      (∀ I, I ∈ st.ast.vertDict.map Prod.fst → UntouchedId I st → UntouchedId I st2) ∧
      (∀ I, I ∈ st.ast.vertDict.map Prod.fst → I ∈ st2.ast.vertDict.map Prod.fst) := by
  intro cs
  induction cs with
  | nil =>
    intro st i tparent n_ st2 _ _ hok hgood
    rw [parseChildrenGo] at hok
    have h := except_pure_ok hok
    subst h
    exact ⟨hgood, fun h => h, fun I _ hU => hU, fun I hI => hI⟩
  | cons c rest ih =>
    intro st i tparent n_ st2 hnm hns hok hgood
    obtain ⟨hnmc, hnmr⟩ := allNodesListB_elim hnm
    obtain ⟨hnsc, hnsr⟩ := allNodesListB_elim hns
    rw [parseChildrenGo] at hok
    by_cases hnamed : c.isNamed
    · rw [if_pos hnamed] at hok
      obtain ⟨p, hr, hok⟩ := except_bind_ok hok
      obtain ⟨st1, toId⟩ := p
      obtain ⟨g1, hE, hok⟩ := except_bind_ok hok
      have R := hrec st c (some tparent) (some i) (some n_) st1 toId hnmc hnsc hr hgood
      have hgood1 : GoodState fp { st1 with ast := g1 } := goodState_addEdge R.1 hE
      have hEk := addEdge_ok_elim hE
      have C := ih { st1 with ast := g1 } (i + 1) tparent n_ st2 hnmr hnsr hok hgood1
      refine ⟨C.1, ?_, ?_, ?_⟩
      · intro hnb
        exact C.2.1 (R.2.1 hnb)
      · intro I hI hU
        have hI1 : I ∈ st1.ast.vertDict.map Prod.fst := R.2.2.2 I hI
        have hU1 : UntouchedId I st1 := R.2.2.1 I hI hU
        have hI1a : I ∈ ({ st1 with ast := g1 } : ParserState).ast.vertDict.map Prod.fst := by
          show I ∈ g1.vertDict.map Prod.fst
          rw [hEk.1]
          exact hI1
        exact C.2.2.1 I hI1a hU1
      · intro I hI
        have hI1 : I ∈ st1.ast.vertDict.map Prod.fst := R.2.2.2 I hI
        have hI1a : I ∈ ({ st1 with ast := g1 } : ParserState).ast.vertDict.map Prod.fst := by
          show I ∈ g1.vertDict.map Prod.fst
          rw [hEk.1]
          exact hI1
        exact C.2.2.2 I hI1a
    · rw [if_neg hnamed] at hok
      exact ih st (i + 1) tparent n_ st2 hnmr hnsr hok hgood

theorem parseNode_good {builtins : List String} {fp : String} :
    ∀ (k : Nat) (st : ParserState) (t : TSNode) (tp : Option TSNode)
      (ci : Option Nat) (ln : Option GNode) (st' : ParserState) (id : String),
      allNodesB notModuleB t = true → allNodesB noSpaceTyB t = true →
      parseNode builtins fp k st t tp ci ln = .ok (st', id) → GoodState fp st →
      GoodState fp st' ∧
      (NoBuiltinCalls builtins st → NoBuiltinCalls builtins st') ∧
      (∀ I, I ∈ st.ast.vertDict.map Prod.fst → UntouchedId I st → UntouchedId I st') ∧
      (∀ I, I ∈ st.ast.vertDict.map Prod.fst → I ∈ st'.ast.vertDict.map Prod.fst) := by
  intro k
  induction k with
  | zero =>
    intro st t tp ci ln st' id _ _ hok _
    rw [parseNode] at hok
    cases hok
  | succ k ih =>
    intro st t tp ci ln st' id hnm hns hok hgood
    rw [parseNode] at hok
    obtain ⟨p, hP, hok⟩ := except_bind_ok hok
    obtain ⟨st1, q⟩ := p
    obtain ⟨n1, id0⟩ := q
    obtain ⟨st2, hC, hok⟩ := except_bind_ok hok
    have hfin := except_pure_ok hok
    have h1 : st2 = st' := congrArg Prod.fst hfin
    have h2 : id0 = id := congrArg Prod.snd hfin
    subst h1
    subst h2
    obtain ⟨hnmt, hnmc⟩ := allNodesB_elim hnm
    obtain ⟨hnst, hnsc⟩ := allNodesB_elim hns
    obtain ⟨PG, PK, PF, PNB, PU⟩ :=
      processNode_good hP (notModule_of hnmt) (noSpace_of hnst) hgood
    have CH := parseChildrenGo_good ih t.children st1 0 t n1 st2 hnmc hnsc hC PG
    refine ⟨CH.1, ?_, ?_, ?_⟩
    · intro hnb
      exact CH.2.1 (PNB hnb)
    · intro I hI hU
      have hI1 : I ∈ st1.ast.vertDict.map Prod.fst := by
        rw [PK]
        exact List.mem_append_left _ hI
      exact CH.2.2.1 I hI1 (PU I hI hU)
    · intro I hI
      have hI1 : I ∈ st1.ast.vertDict.map Prod.fst := by
        rw [PK]
        exact List.mem_append_left _ hI
      exact CH.2.2.2 I hI1

theorem walkFrom_preserves {builtins : List String} {fp : String}
    {st st' : ParserState} (h : WalkFrom builtins fp st st') :
    ∀ I, GoodState fp st → I ∈ st.ast.vertDict.map Prod.fst → UntouchedId I st →
      GoodState fp st' ∧ I ∈ st'.ast.vertDict.map Prod.fst ∧ UntouchedId I st' := by
  induction h with
  | refl st => exact fun I hg hI hU => ⟨hg, hI, hU⟩
  | node k t tp ci ln id hnm hns hok hrest ih =>
    intro I hg hI hU
    have PN := parseNode_good k _ t tp ci ln _ id hnm hns hok hg
    exact ih I PN.1 (PN.2.2.2 I hI) (PN.2.2.1 I hI hU)
  | edge a b g' hE hrest ih =>
    intro I hg hI hU
    have hg1 := goodState_addEdge hg hE
    have hk := addEdge_ok_elim hE
    refine ih I hg1 ?_ hU
    show I ∈ g'.vertDict.map Prod.fst
    rw [hk.1]
    exact hI

/-- **C1**: on a tree-sitter Python parse tree — root kind `'module'`, every
other node a non-`module`, space-free kind — a successful `parse` returns
the root id `'module | ' + filepath` with no counter suffix, gives every
other vertex a well-shaped display-name base plus `'_' + str(counter)`
suffix (never equal to the root id), and leaves the vertex counter equal to
the number of stored vertices: the counter counts insertions while the
dictionary counts distinct ids, so their equality says no insertion ever
reused an id — every emitted node id is unique within the file's graph. -/
theorem c1_unique_ids {fp : String} {tree : TSNode} {st : ParserState} {rid : String}
    (hmod : tree.ty = "module")
    (hnm : allNodesListB notModuleB tree.children = true)
    (hns : allNodesListB noSpaceTyB tree.children = true)
    (hok : parseFile BUILTINS fp tree = .ok (st, rid)) :
    rid = rootId fp ∧
    st.ast.numVertices = st.ast.vertDict.length ∧
    ∀ k ∈ st.ast.vertDict.map Prod.fst,
      k = rootId fp ∨
      ∃ b c, k.data = b.data ++ '_' :: natChars c ∧ baseOk b ∧ k ≠ rootId fp := by
  simp only [parseFile] at hok
  obtain ⟨p, hPN, hok⟩ := except_bind_ok hok
  obtain ⟨st0, rid0⟩ := p
  obtain ⟨st2, hRI, hok⟩ := except_bind_ok hok
  have hfin := except_pure_ok hok
  have h1 : st2 = st := congrArg Prod.fst hfin
  have h2 : rid0 = rid := congrArg Prod.snd hfin
  subst h1
  subst h2
  obtain ⟨m, hm⟩ : ∃ m, tsSize tree = m + 1 := by
    cases htz : tsSize tree with
    | zero => exact absurd htz (tsSize_ne_zero tree)
    | succ m => exact ⟨m, rfl⟩
  rw [hm] at hPN
  rw [parseNode] at hPN
  obtain ⟨q, hP, hPN⟩ := except_bind_ok hPN
  obtain ⟨st1, q2⟩ := q
  obtain ⟨n1, idr⟩ := q2
  obtain ⟨stc, hC, hPN⟩ := except_bind_ok hPN
  have hfin2 := except_pure_ok hPN
  have h3 : stc = st0 := congrArg Prod.fst hfin2
  have h4 : idr = rid0 := congrArg Prod.snd hfin2
  subst h3
  subst h4
  have PM := processNode_module hP hmod (by simp [initState]) (goodState_init fp)
  have CH := parseChildrenGo_good (parseNode_good m) tree.children st1 0 tree n1
    stc hnm hns hC PM.1
  have RK := resolveImports_keys hRI
  refine ⟨PM.2.1, ?_, ?_⟩
  · have hlen := congrArg List.length RK.1
    simp only [List.length_map] at hlen
    rw [RK.2, CH.1.1, hlen]
  · intro k hk
    rw [RK.1] at hk
    rcases CH.1.2.1 k hk with hk1 | ⟨b, c, mm, hshape, hbk, _, _⟩
    · exact Or.inl hk1
    · right
      refine ⟨b, c, hshape, hbk, ?_⟩
      intro hkr
      subst hkr
      exact id_shape_ne_root hbk hshape.symm

/-- C1 witness: the one-statement file `x` (a `module` root over an
`expression_statement` and its `identifier`) parses with root id
`'module | t.py'` and a vertex counter equal to the table size. -/
theorem c1_witness :
    ∃ st rid, parseFile BUILTINS "t.py" tModX = .ok (st, rid) ∧
      rid = rootId "t.py" ∧ st.ast.numVertices = st.ast.vertDict.length := by
  have hsome : (parseFile BUILTINS "t.py" tModX).toOption.isSome = true := by decide
  cases hok : parseFile BUILTINS "t.py" tModX with
  | error e =>
    rw [hok] at hsome
    simp [Except.toOption] at hsome
  | ok p =>
    obtain ⟨st, rid⟩ := p
    have H := c1_unique_ids (show tModX.ty = "module" from rfl)
      (by decide) (by decide) hok
    exact ⟨st, rid, rfl, H.1, H.2.1⟩

/-- `_parse_node` on a `call` node whose callee is a built-in: the built-in
guard fires, `_handle_call` is skipped, and neither the import nor the
definition branch applies to a `call`, so the bookkeeping phase returns its
input state unchanged. -/
theorem handlePhase_call_builtin {builtins : List String} {stx : ParserState}
    {node : TSNode} {tp : Option TSNode} {ci : Option Nat} {id : String}
    {st4 : ParserState} {c0 : TSNode} {cs' : List TSNode}
    (hty : node.ty = "call") (hch : node.children = c0 :: cs')
    (hbi : c0.text ∈ builtins)
    (h : handlePhase builtins stx node tp ci id = .ok st4) : st4 = stx := by
  rw [handlePhase] at h
  obtain ⟨s2, h2, h⟩ := except_bind_ok h
  obtain ⟨s3, h3, h⟩ := except_bind_ok h
  have hc : s2 = stx := by
    rw [callPhase, if_pos hty] at h2
    obtain ⟨c0x, hg, h2⟩ := except_bind_ok h2
    have hc0 : c0x = c0 := by
      rw [getChild.eq_def, hch] at hg
      simp at hg
      exact hg.symm
    subst hc0
    rw [if_pos (contains_of_mem hbi)] at h2
    exact (except_pure_ok h2).symm
  have hi : s3 = s2 := by
    rw [importPhase.eq_def, hty] at h3
    rw [if_neg (by decide), if_neg (by decide)] at h3
    exact (except_pure_ok h3).symm
  have hd : st4 = s3 := by
    rw [defPhase, hty] at h
    rw [if_neg (by decide)] at h
    exact (except_pure_ok h).symm
  rw [hd, hi, hc]

/-- **C5**: processing a `call` node whose callee (`children[0].text`) is a
recognized built-in leaves the calls table, the definitions table and the
queued call→import edges exactly as they were — the walk records no entry
for that call — and, however the rest of the walk continues, the final
resolution pass adds no outgoing edge at the call node's id: no call→import
and no call→definition edge is ever created for that call. -/
theorem c5_builtin_exclusion {builtins : List String} {fp : String}
    {st : ParserState} {node : TSNode} {tp : Option TSNode} {ci : Option Nat}
    {ln : Option GNode} {st1 : ParserState} {n_ : GNode} {id : String}
    (hty : node.ty = "call") {c0 : TSNode} {cs' : List TSNode}
    (hch : node.children = c0 :: cs')
    (hbi : c0.text ∈ builtins)
    (hok : processNode builtins fp st node tp ci ln = .ok (st1, n_, id))
    (hgood : GoodState fp st) :
    st1.functionCalls = st.functionCalls ∧
    st1.functionDefinitions = st.functionDefinitions ∧
    st1.edgesToAdd = st.edgesToAdd ∧
    ∀ st2, WalkFrom builtins fp st1 st2 →
      UntouchedId id st2 ∧
      ∀ st3, resolveImports st2 = .ok st3 →
        ∀ y, hasEdge st3.ast id y = hasEdge st2.ast id y := by
  have hmod : node.ty ≠ "module" := by rw [hty]; decide
  have hsp : ' ' ∉ node.ty.data := by rw [hty]; decide
  obtain ⟨PG, PK, PF, PNB, PU⟩ := processNode_good hok hmod hsp hgood
  simp only [processNode] at hok
  obtain ⟨text, hT, hok2⟩ := except_bind_ok hok
  obtain ⟨gi, hAV, hok2⟩ := except_bind_ok hok2
  obtain ⟨st4, hHP, hok2⟩ := except_bind_ok hok2
  have hfin := except_pure_ok hok2
  have hst1 : st4 = st1 := congrArg (fun q => q.1) hfin
  have hEq := handlePhase_call_builtin hty hch hbi hHP
  have hFC : st1.functionCalls = st.functionCalls := by rw [← hst1, hEq]
  have hFD : st1.functionDefinitions = st.functionDefinitions := by rw [← hst1, hEq]
  have hET : st1.edgesToAdd = st.edgesToAdd := by rw [← hst1, hEq]
  have hUst : UntouchedId id st := by
    refine ⟨?_, ?_, ?_⟩
    · intro p hp hpe
      exact PF (hpe ▸ hgood.2.2.1 p hp)
    · intro p hp hpe
      exact PF (hpe ▸ hgood.2.2.2.1 p hp)
    · intro e he hee
      exact PF (hee ▸ hgood.2.2.2.2 e he)
  have hU1 : UntouchedId id st1 := by
    refine ⟨?_, ?_, ?_⟩
    · intro p hp
      rw [hFC] at hp
      exact hUst.1 p hp
    · intro p hp
      rw [hFD] at hp
      exact hUst.2.1 p hp
    · intro e he
      rw [hET] at he
      exact hUst.2.2 e he
  have hI1 : id ∈ st1.ast.vertDict.map Prod.fst := by
    rw [PK]
    exact List.mem_append_right _ (by simp)
  refine ⟨hFC, hFD, hET, ?_⟩
  intro st2 hw
  have W := walkFrom_preserves hw id PG hI1 hU1
  exact ⟨W.2.2, fun st3 hres y => resolveImports_other hres W.2.2 y⟩

/-- C5 witness: processing the call `print()` from a fresh state records
nothing — the calls table stays empty — the new call node's id stays out of
every table, and running resolution right away adds no edge at that id. -/
theorem c5_witness :
    ∃ st1 n_ id,
      processNode BUILTINS "t.py" initState tCallPrint none none none =
        .ok (st1, n_, id) ∧
      st1.functionCalls = initState.functionCalls ∧
      UntouchedId id st1 ∧
      ∀ st3, resolveImports st1 = .ok st3 →
        ∀ y, hasEdge st3.ast id y = hasEdge st1.ast id y := by
  have hsome : (processNode BUILTINS "t.py" initState tCallPrint
      none none none).toOption.isSome = true := by decide
  cases hok : processNode BUILTINS "t.py" initState tCallPrint none none none with
  | error e =>
    rw [hok] at hsome
    simp [Except.toOption] at hsome
  | ok p =>
    obtain ⟨st1, q⟩ := p
    obtain ⟨n1, id⟩ := q
    have H := c5_builtin_exclusion (show tCallPrint.ty = "call" from rfl)
      (show tCallPrint.children = tIdPrint :: [tArgs] from rfl)
      (by decide) hok (goodState_init "t.py")
    have W := H.2.2.2 st1 (WalkFrom.refl st1)
    exact ⟨st1, n1, id, rfl, H.1, W.1, W.2⟩

end CTG
